import Mathlib

/-!
Verification of the CNN non-wear-time detection engine
(src/functions/raw_non_wear_functions.py).

Shallow embedding conventions:
- A sample stream is a list of triples of rationals (the three axes of one
  sample).  numpy float arithmetic is idealised as exact rational arithmetic.
- numpy standard-deviation threshold tests (np.all(np.std(slice, axis=0) <= t))
  are embedded via the equivalence  std <= t  iff  0 <= t and var <= t^2,
  which holds because std = sqrt(var) with var >= 0.  For an empty slice
  np.std yields NaN and every comparison with NaN is False, hence the
  emptiness conjunct.
- Python slices (including negative start indices and clipping) are embedded
  by the function pySlice below.
- The unbounded while-True searches of the source are embedded with an
  explicit fuel argument; the public wrappers pass enough fuel for every
  terminating execution of the source (the loop moves its index by
  60*hz samples per iteration, so for hz >= 1 it makes at most len(data)
  iterations).  Fuel-stability theorems below make the termination argument
  explicit.
- The Keras classifier (cnn_model.predict_classes) is an external,
  out-of-scope collaborator per the specification; it is a function
  parameter mapping a sample window to its integer class label.
- The per-sample output vectors have numpy dtype uint8 in the source, so
  every value stored in them is taken mod 256.
-/

attribute [local semireducible] Rat.add Rat.mul Rat.inv Rat.sub

/-- One triaxial sample: the three axis values of a single reading. -/
abbrev Tri : Type := ℚ × ℚ × ℚ

/-- Mean of a list of rationals (np.mean); 0 on the empty list. -/
def listMean (xs : List ℚ) : ℚ := xs.sum / xs.length

/-- Population variance of a list of rationals (square of np.std with the
default ddof = 0); 0 on the empty list. -/
def listVar (xs : List ℚ) : ℚ :=
  ((xs.map (fun x => (x - listMean xs) ^ 2)).sum) / xs.length

/-- Embedding of np.all(np.std(rows, axis=0) <= t) for a slice of triaxial
rows: the slice is non-empty (np.std of an empty slice is NaN, and NaN
comparisons are False), and each per-axis standard deviation is at most t,
expressed as 0 <= t together with variance <= t^2. -/
def stdAllLe (rows : List Tri) (t : ℚ) : Bool :=
  decide (rows ≠ []) && decide (0 ≤ t) &&
  decide (listVar (rows.map (fun r => r.1)) ≤ t ^ 2) &&
  decide (listVar (rows.map (fun r => r.2.1)) ≤ t ^ 2) &&
  decide (listVar (rows.map (fun r => r.2.2)) ≤ t ^ 2)

/-- Normalisation of one Python slice endpoint over a list of length n:
negative indices count from the end and everything is clipped to [0, n]. -/
def sliceIdx (n : ℕ) (i : ℤ) : ℕ :=
  if i < 0 then ((n : ℤ) + i).toNat else min i.toNat n

/-- Python list/array slicing l[a:b] with step 1, including negative index
normalisation and clipping. -/
def pySlice {α : Type} (l : List α) (a b : ℤ) : List α :=
  (l.drop (sliceIdx l.length a)).take (sliceIdx l.length b - sliceIdx l.length a)

/-- numpy slice assignment v[s:e] = x for a one-column vector: every position
in [s, e) (clipped to the vector) receives x, all others are unchanged. -/
def setRange (v : List ℕ) (s e x : ℕ) : List ℕ :=
  (List.range v.length).map (fun i => if s ≤ i ∧ i < e then x else v.getD i 0)

/-- np.min of a vector of indices; the source only applies it to non-empty
rows, the value on [] is an unreachable sentinel. -/
def npMin (l : List ℕ) : ℕ :=
  match l with
  | [] => 0
  | x :: xs => xs.foldl min x

/-- np.max of a vector of indices; the source only applies it to non-empty
rows, the value on [] is an unreachable sentinel. -/
def npMax (l : List ℕ) : ℕ :=
  match l with
  | [] => 0
  | x :: xs => xs.foldl max x

/-- np.where(v == 0)[0] on a one-column vector: the sorted list of positions
holding 0. -/
def zeroIndexes (v : List ℕ) : List ℕ :=
  (List.range v.length).filter (fun i => v.getD i 0 == 0)

/-- Source function find_consecutive_index_ranges: np.split of an index
vector at every position where the difference of adjacent entries is not 1.
On the empty vector np.split returns one empty part. -/
def find_consecutive_index_ranges : List ℕ → List (List ℕ)
  | [] => [[]]
  | [x] => [[x]]
  | x :: y :: rest =>
    match find_consecutive_index_ranges (y :: rest) with
    | [] => [[x]]
    | r :: rs => if y = x + 1 then (x :: r) :: rs else [x] :: r :: rs

/-- range(0, n, w) of Python: the window start offsets of the candidate scan.
For w = 0 Python range raises ValueError; the embedding returns [] (all
claims assume a positive window). -/
def windowStarts (n w : ℕ) : List ℕ :=
  if w = 0 then [] else (List.range ((n + w - 1) / w)).map (fun k => k * w)

/-- Loop body of forward_search_non_wear_time: repeatedly extend the stop of
the slice by one step while the extended slice stays inside the data and all
per-axis standard deviations stay at or below std_max.  The source loop is
while True; the fuel argument makes the embedding total. -/
def forwardSearchGo (data : List Tri) (start : ℕ) (stdMax : ℚ) (step : ℕ) :
    ℕ → ℕ → ℕ
  | 0, stop => stop
  | fuel + 1, stop =>
    if stop + step ≤ data.length ∧
        stdAllLe (pySlice data (start : ℤ) ((stop + step : ℕ) : ℤ)) stdMax = true then
      forwardSearchGo data start stdMax step fuel (stop + step)
    else stop

/-- Source function forward_search_non_wear_time with the default
time_step = 60 (so the sample step is 60 * hz).  Fuel data.length + 1 covers
every terminating run of the source loop (each committed extension increases
the stop by at least 60 samples when hz >= 1). -/
def forward_search_non_wear_time (data : List Tri) (start_slice end_slice : ℕ)
    (std_max : ℚ) (hz : ℕ) : ℕ :=
  forwardSearchGo data start_slice std_max (60 * hz) (data.length + 1) end_slice

/-- Loop body of backward_search_non_wear_time: repeatedly lower the start of
the slice by one step while the lowered start is non-negative and all
per-axis standard deviations stay at or below std_max. -/
def backwardSearchGo (data : List Tri) (stop : ℕ) (stdMax : ℚ) (step : ℕ) :
    ℕ → ℕ → ℕ
  | 0, start => start
  | fuel + 1, start =>
    if step ≤ start ∧
        stdAllLe (pySlice data ((start - step : ℕ) : ℤ) (stop : ℤ)) stdMax = true then
      backwardSearchGo data stop stdMax step fuel (start - step)
    else start

/-- Source function backward_search_non_wear_time with the default
time_step = 60.  Fuel start_slice + 1 covers every terminating run of the
source loop. -/
def backward_search_non_wear_time (data : List Tri) (start_slice end_slice : ℕ)
    (std_max : ℚ) (hz : ℕ) : ℕ :=
  backwardSearchGo data end_slice std_max (60 * hz) (start_slice + 1) start_slice

/-- First pass of find_candidate_non_wear_segments_from_raw: walk the stream
in consecutive windows of sliding_window minutes and mark a whole window as
candidate non-wear (value 0, default 1 = wear) when every axis standard
deviation over the window is at or below the threshold.  The use_vmu branch
of the source is not modelled: every caller in the repository uses the
default use_vmu = False. -/
def candidateInitialVector (acc : List Tri) (std_threshold : ℚ) (hz sliding_window : ℕ) :
    List ℕ :=
  (windowStarts acc.length (sliding_window * hz * 60)).foldl
    (fun v (i : ℕ) =>
      if stdAllLe (pySlice acc (i : ℤ) ((i + sliding_window * hz * 60 : ℕ) : ℤ)) std_threshold then
        setRange v i (i + sliding_window * hz * 60) 0
      else v)
    (List.replicate acc.length 1)

/-- Refined start of one coarse candidate run (source lines start_slice =
np.min(row) followed by the backward search). -/
def refinedRunStart (acc : List Tri) (std_threshold : ℚ) (hz : ℕ) (row : List ℕ) : ℕ :=
  backward_search_non_wear_time acc (npMin row) (npMax row) std_threshold hz

/-- Refined stop of one coarse candidate run (the forward search started from
the already-refined start, as in the source). -/
def refinedRunStop (acc : List Tri) (std_threshold : ℚ) (hz : ℕ) (row : List ℕ) : ℕ :=
  forward_search_non_wear_time acc (refinedRunStart acc std_threshold hz row)
    (npMax row) std_threshold hz

/-- Source function find_candidate_non_wear_segments_from_raw: mark windows,
extract the maximal runs of marked samples, refine each run boundary with the
backward and forward minute-step searches, and keep (paint as 0 in a fresh
vector) every refined run at least min_segment_length minutes long. -/
def find_candidate_non_wear_segments_from_raw (acc : List Tri) (std_threshold : ℚ)
    (hz min_segment_length sliding_window : ℕ) : List ℕ :=
  let nwv := candidateInitialVector acc std_threshold hz sliding_window
  (find_consecutive_index_ranges (zeroIndexes nwv)).foldl
    (fun v row =>
      if row ≠ [] then
        if min_segment_length * hz * 60 ≤
            refinedRunStop acc std_threshold hz row - refinedRunStart acc std_threshold hz row then
          setRange v (refinedRunStart acc std_threshold hz row)
            (refinedRunStop acc std_threshold hz row) 0
        else v
      else v)
    (List.replicate acc.length 1)

/-- One row of the episode table handed to group_episodes: at the call site
in cnn_nw_algorithm the start/stop timestamp columns duplicate the index
columns and the training label column is unused (training = False). -/
structure NwRun where
  counter : ℕ
  start : ℕ
  start_index : ℕ
  stop : ℕ
  stop_index : ℕ
deriving DecidableEq, Repr

/-- One merged episode produced by group_episodes.  The source stores the
counter label as either a bare counter or a string "first-last"; the label is
embedded as the pair (counterFirst, counterLast). -/
structure GroupedEpisode where
  counterFirst : ℕ
  counterLast : ℕ
  start_index : ℕ
  start : ℕ
  stop_index : ℕ
  stop : ℕ
deriving DecidableEq, Repr

/-- Start index of the first run of a block (sentinel default is never used
on the non-empty blocks produced below). -/
def blockStart (b : List NwRun) : ℕ := (b.head?.getD ⟨0, 0, 0, 0, 0⟩).start_index

/-- Stop index of the last run of a block. -/
def blockStop (b : List NwRun) : ℕ := (b.getLast?.getD ⟨0, 0, 0, 0, 0⟩).stop_index

/-- Loop of group_episodes over every row after the first.  cur carries the
current accumulating episode (the source variables current_*), lastCounter is
the counter of the last input row (episodes.iloc[-1]).  Python integer
subtraction next_start_index - current_stop_index can be negative exactly
when the truncated ℕ subtraction is 0; both compare ≤ to the non-negative
threshold the same way. -/
def groupEpisodesLoop (hz distance_in_min correction lastCounter : ℕ) :
    List NwRun → NwRun → List GroupedEpisode → List GroupedEpisode
  | [], _, acc => acc
  | row :: rest, cur, acc =>
    if row.start_index - cur.stop_index ≤ hz * 60 * distance_in_min + correction then
      let acc' :=
        if row.counter = lastCounter then
          acc ++ [⟨cur.counter, row.counter, cur.start_index, cur.start,
                   row.stop_index, row.stop⟩]
        else acc
      groupEpisodesLoop hz distance_in_min correction lastCounter rest
        { cur with stop_index := row.stop_index, stop := row.stop } acc'
    else
      let lbl : ℕ × ℕ :=
        if row.counter - cur.counter = 1 then (cur.counter, cur.counter)
        else (cur.counter, row.counter - 1)
      let acc' := acc ++ [⟨lbl.1, lbl.2, cur.start_index, cur.start,
                           cur.stop_index, cur.stop⟩]
      let acc'' :=
        if row.counter = lastCounter then
          acc' ++ [⟨row.counter, row.counter, row.start_index, row.start,
                    row.stop_index, row.stop⟩]
        else acc'
      groupEpisodesLoop hz distance_in_min correction lastCounter rest row acc''

/-- Source function group_episodes (training = False path).  An empty or
singleton table is returned unchanged (the source transposes it back and
forth); otherwise the loop above merges all rows whose gap to the current
episode is at most hz * 60 * distance_in_min + correction samples. -/
def group_episodes (episodes : List NwRun) (distance_in_min correction hz : ℕ) :
    List GroupedEpisode :=
  match episodes with
  | [] => []
  | [e] => [⟨e.counter, e.counter, e.start_index, e.start, e.stop_index, e.stop⟩]
  | e :: rest =>
    groupEpisodesLoop hz distance_in_min correction
      ((rest.getLast?.getD e).counter) rest e []

/-- Loop body of the internal helper _forward_search_episode: extend the stop
index one second (hz samples) at a time while the next one-second window stays
inside the data and is below the threshold on every axis; the source bounds
the loop by hz * 60 * max_search_min iterations. -/
def forwardSearchEpisodeGo (acc : List Tri) (hz : ℕ) (std_threshold : ℚ) :
    ℕ → ℕ → ℕ
  | 0, index => index
  | fuel + 1, index =>
    if index + hz ≤ acc.length ∧
        stdAllLe (pySlice acc (index : ℤ) ((index + hz : ℕ) : ℤ)) std_threshold = true then
      forwardSearchEpisodeGo acc hz std_threshold fuel (index + hz)
    else index

/-- Source helper _forward_search_episode. -/
def forward_search_episode (acc : List Tri) (index hz max_search_min : ℕ)
    (std_threshold : ℚ) : ℕ :=
  forwardSearchEpisodeGo acc hz std_threshold (hz * 60 * max_search_min) index

/-- Loop body of the internal helper _backward_search_episode: lower the start
index one second at a time while the previous one-second window starts at a
non-negative index and is below the threshold on every axis. -/
def backwardSearchEpisodeGo (acc : List Tri) (hz : ℕ) (std_threshold : ℚ) :
    ℕ → ℕ → ℕ
  | 0, index => index
  | fuel + 1, index =>
    if hz ≤ index ∧
        stdAllLe (pySlice acc ((index - hz : ℕ) : ℤ) (index : ℤ)) std_threshold = true then
      backwardSearchEpisodeGo acc hz std_threshold fuel (index - hz)
    else index

/-- Source helper _backward_search_episode. -/
def backward_search_episode (acc : List Tri) (index hz max_search_min : ℕ)
    (std_threshold : ℚ) : ℕ :=
  backwardSearchEpisodeGo acc hz std_threshold (hz * 60 * max_search_min) index

/-- Label of the start edge of one episode in cnn_nw_algorithm: slice the
episode_window_sec * hz samples right before the refined start; if the slice
has the full expected size, ask the classifier (label 1 sets the flag), else
fall back to the configured edge default. -/
def startLabel (acc : List Tri) (w : ℕ) (edge_true_or_false : Bool)
    (classify : List Tri → ℕ) (start2 : ℕ) : Bool :=
  let ep := pySlice acc ((start2 : ℤ) - (w : ℤ)) (start2 : ℤ)
  if ep.length = w then decide (classify ep = 1) else edge_true_or_false

/-- Label of the stop edge of one episode in cnn_nw_algorithm: slice the
episode_window_sec * hz samples right after the refined stop; if the slice
has the full expected size, ask the classifier, else fall back to the
configured edge default. -/
def stopLabel (acc : List Tri) (w : ℕ) (edge_true_or_false : Bool)
    (classify : List Tri → ℕ) (stop2 : ℕ) : Bool :=
  let ep := pySlice acc (stop2 : ℤ) ((stop2 + w : ℕ) : ℤ)
  if ep.length = w then decide (classify ep = 1) else edge_true_or_false

/-- Fatal error conditions of cnn_nw_algorithm (the source logs and calls
exit(1)). -/
inductive NwError : Type
  | invalidEncoding : NwError
  | invalidDecisionRule : NwError
deriving DecidableEq, Repr

/-- Equality of engine results is decidable; this lets concrete runs of the
embedded engine be checked by evaluation. -/
instance exceptDecEq {ε α : Type} [DecidableEq ε] [DecidableEq α] :
    DecidableEq (Except ε α) := fun a b =>
  match a, b with
  | .ok x, .ok y =>
    if h : x = y then .isTrue (by rw [h]) else
      .isFalse (by intro hc; cases hc; exact h rfl)
  | .ok _, .error _ => .isFalse (by intro hc; cases hc)
  | .error _, .ok _ => .isFalse (by intro hc; cases hc)
  | .error e, .error f =>
    if h : e = f then .isTrue (by rw [h]) else
      .isFalse (by intro hc; cases hc; exact h rfl)

/-- Second-stage refined start of one merged episode inside cnn_nw_algorithm
(the _backward_search_episode call with hz = 100, max_search_min = 5). -/
def refinedStart (acc : List Tri) (std_threshold : ℚ) (ep : GroupedEpisode) : ℕ :=
  backward_search_episode acc ep.start_index 100 5 std_threshold

/-- Second-stage refined stop of one merged episode inside cnn_nw_algorithm
(the _forward_search_episode call with hz = 100, max_search_min = 5). -/
def refinedStop (acc : List Tri) (std_threshold : ℚ) (ep : GroupedEpisode) : ℕ :=
  forward_search_episode acc ep.stop_index 100 5 std_threshold

/-- Decision taken by the per-episode loop of cnn_nw_algorithm for one merged
episode: logical or / and of the two edge labels according to the configured
decision rule (only consulted for the two valid rules). -/
def episodeConfirmed (acc : List Tri) (classify : List Tri → ℕ) (t : ℚ) (w : ℕ)
    (edge : Bool) (rule : String) (ep : GroupedEpisode) : Bool :=
  if rule = "or" then
    startLabel acc w edge classify (refinedStart acc t ep) ||
      stopLabel acc w edge classify (refinedStop acc t ep)
  else
    startLabel acc w edge classify (refinedStart acc t ep) &&
      stopLabel acc w edge classify (refinedStop acc t ep)

/-- Per-episode loop of cnn_nw_algorithm: refine both edges, compute the two
edge labels, and commit the episode into the output vector and interval list
when the configured decision rule confirms it; any other decision rule is a
fatal error, raised while processing an episode. -/
def processEpisodes (acc : List Tri) (classify : List Tri → ℕ) (std_threshold : ℚ)
    (w : ℕ) (edge_true_or_false : Bool) (rule : String) (nwt : ℕ) :
    List GroupedEpisode → List ℕ × List (ℕ × ℕ) →
    Except NwError (List ℕ × List (ℕ × ℕ))
  | [], st => .ok st
  | ep :: rest, (v, idxs) =>
    let stop2 := refinedStop acc std_threshold ep
    let start2 := refinedStart acc std_threshold ep
    let sL := startLabel acc w edge_true_or_false classify start2
    let tL := stopLabel acc w edge_true_or_false classify stop2
    if rule = "or" then
      if sL || tL then
        processEpisodes acc classify std_threshold w edge_true_or_false rule nwt rest
          (setRange v start2 stop2 (nwt % 256), idxs ++ [(start2, stop2)])
      else
        processEpisodes acc classify std_threshold w edge_true_or_false rule nwt rest (v, idxs)
    else if rule = "and" then
      if sL && tL then
        processEpisodes acc classify std_threshold w edge_true_or_false rule nwt rest
          (setRange v start2 stop2 (nwt % 256), idxs ++ [(start2, stop2)])
      else
        processEpisodes acc classify std_threshold w edge_true_or_false rule nwt rest (v, idxs)
    else .error .invalidDecisionRule

/-- Episode table built by cnn_nw_algorithm from the candidate vector: the
zero positions are split into maximal consecutive runs and each run becomes a
row with counter i and the run minimum and maximum as start/stop (the source
fills both the timestamp and the index columns with the same values).  The
source guards on the first segment being non-empty. -/
def episodeRunsOf (acc : List Tri) (std_threshold : ℚ) (min_segment_length sliding_window : ℕ) :
    List NwRun :=
  let nwEpisodes := find_candidate_non_wear_segments_from_raw acc std_threshold 100
    min_segment_length sliding_window
  let segs := find_consecutive_index_ranges (zeroIndexes nwEpisodes)
  if 0 < (segs.head?.getD []).length then
    segs.enum.map (fun p => ⟨p.1, npMin p.2, npMin p.2, npMax p.2, npMax p.2⟩)
  else []

/-- Merged episode list of cnn_nw_algorithm: group_episodes with
correction = 3 at the working rate of 100 Hz. -/
def mergedEpisodesOf (acc : List Tri) (std_threshold : ℚ)
    (distance_in_min min_segment_length sliding_window : ℕ) : List GroupedEpisode :=
  group_episodes (episodeRunsOf acc std_threshold min_segment_length sliding_window)
    distance_in_min 3 100

/-- Modelled from the spec: resample_acceleration lives in
src/functions/signal_processing_functions.py, which is not part of src/; the
specification treats resampling of non-native sample rates to the reference
rate as an external collaborator that converts a stream sampled at from_hz
into the same duration of samples at to_hz, so the sample count becomes
len * to_hz / from_hz; sample values are taken from the nearest source
position. -/
def resample_acceleration (data : List Tri) (from_hz to_hz : ℕ) : List Tri :=
  (List.range (data.length * to_hz / from_hz)).map
    (fun i => data.getD (i * from_hz / to_hz) (0, 0, 0))

/-- Stream actually processed by cnn_nw_algorithm: data that is not at 100 Hz
is resampled to 100 Hz first. -/
def preprocessed (raw : List Tri) (hz : ℕ) : List Tri :=
  if hz = 100 then raw else resample_acceleration raw hz 100

/-- Source function cnn_nw_algorithm.  The triaxial shape check is enforced
by the type of the stream; equal wear and non-wear encodings are a fatal
configuration error; the output vector starts as all wear encoding (dtype
uint8, hence mod 256) and only confirmed episodes write into it. -/
def cnn_nw_algorithm (raw : List Tri) (hz : ℕ) (classify : List Tri → ℕ)
    (std_threshold : ℚ) (distance_in_min episode_window_sec : ℕ)
    (edge_true_or_false : Bool) (start_stop_label_decision : String)
    (nwt_encoding wt_encoding : ℕ) (min_segment_length sliding_window : ℕ) :
    Except NwError (List ℕ × List (ℕ × ℕ)) :=
  if wt_encoding = nwt_encoding then .error .invalidEncoding
  else
    let acc := preprocessed raw hz
    processEpisodes acc classify std_threshold (episode_window_sec * 100)
      edge_true_or_false start_stop_label_decision nwt_encoding
      (mergedEpisodesOf acc std_threshold distance_in_min min_segment_length sliding_window)
      (List.replicate acc.length (wt_encoding % 256), [])

/-! Basic facts about the slicing and vector-update primitives. -/

lemma sliceIdx_le (n : ℕ) (i : ℤ) : sliceIdx n i ≤ n := by
  unfold sliceIdx
  split
  · omega
  · exact min_le_right _ _

lemma sliceIdx_natCast_le (n m : ℕ) : sliceIdx n (m : ℤ) ≤ m := by
  unfold sliceIdx
  split
  · omega
  · simpa using min_le_left _ _

lemma pySlice_length_le {α : Type} (l : List α) (a b : ℤ) :
    (pySlice l a b).length ≤ sliceIdx l.length b := by
  unfold pySlice
  calc ((l.drop (sliceIdx l.length a)).take
          (sliceIdx l.length b - sliceIdx l.length a)).length
      ≤ sliceIdx l.length b - sliceIdx l.length a := by
        simp [List.length_take]
    _ ≤ sliceIdx l.length b := Nat.sub_le _ _

lemma setRange_length (v : List ℕ) (s e x : ℕ) :
    (setRange v s e x).length = v.length := by
  simp [setRange]

lemma getD_setRange (v : List ℕ) (s e x i : ℕ) (h : i < v.length) :
    (setRange v s e x).getD i 0 = if s ≤ i ∧ i < e then x else v.getD i 0 := by
  unfold setRange
  rw [List.getD_eq_getElem _ _ (by simpa using h)]
  simp

lemma getD_replicate (n x i : ℕ) (h : i < n) :
    (List.replicate n x).getD i 0 = x := by
  rw [List.getD_eq_getElem _ _ (by simpa using h)]
  simp

/-! Termination (fuel stability) and bounds for the minute-step edge
searches of find_candidate_non_wear_segments_from_raw. -/

lemma le_forwardSearchGo (data : List Tri) (start : ℕ) (t : ℚ) (step : ℕ) :
    ∀ fuel stop, stop ≤ forwardSearchGo data start t step fuel stop := by
  intro fuel
  induction fuel with
  | zero => intro stop; simp [forwardSearchGo]
  | succ f ih =>
    intro stop
    rw [forwardSearchGo]
    split
    · exact le_trans (Nat.le_add_right _ _) (ih (stop + step))
    · exact le_rfl

lemma forwardSearchGo_le (data : List Tri) (start : ℕ) (t : ℚ) (step : ℕ) :
    ∀ fuel stop, stop ≤ data.length →
      forwardSearchGo data start t step fuel stop ≤ data.length := by
  intro fuel
  induction fuel with
  | zero => intro stop h; simpa [forwardSearchGo] using h
  | succ f ih =>
    intro stop h
    rw [forwardSearchGo]
    split
    · next hc => exact ih (stop + step) hc.1
    · exact h

lemma forwardSearchGo_congr (data : List Tri) (start : ℕ) (t : ℚ) (step : ℕ)
    (hstep : 0 < step) :
    ∀ f g stop, data.length ≤ stop + f → data.length ≤ stop + g →
      forwardSearchGo data start t step f stop = forwardSearchGo data start t step g stop := by
  intro f
  induction f with
  | zero =>
    intro g stop hf hg
    cases g with
    | zero => rfl
    | succ g =>
      rw [forwardSearchGo, forwardSearchGo]
      rw [if_neg]
      intro hc
      omega
  | succ f ih =>
    intro g stop hf hg
    cases g with
    | zero =>
      rw [forwardSearchGo, forwardSearchGo]
      rw [if_neg]
      intro hc
      omega
    | succ g =>
      rw [forwardSearchGo, forwardSearchGo]
      split
      · next hc => exact ih g (stop + step) (by omega) (by omega)
      · rfl

lemma backwardSearchGo_le (data : List Tri) (stop : ℕ) (t : ℚ) (step : ℕ) :
    ∀ fuel start, backwardSearchGo data stop t step fuel start ≤ start := by
  intro fuel
  induction fuel with
  | zero => intro start; simp [backwardSearchGo]
  | succ f ih =>
    intro start
    rw [backwardSearchGo]
    split
    · exact le_trans (ih (start - step)) (Nat.sub_le _ _)
    · exact le_rfl

lemma backwardSearchGo_congr (data : List Tri) (stop : ℕ) (t : ℚ) (step : ℕ)
    (hstep : 0 < step) :
    ∀ f g start, start ≤ f → start ≤ g →
      backwardSearchGo data stop t step f start = backwardSearchGo data stop t step g start := by
  intro f
  induction f with
  | zero =>
    intro g start hf hg
    cases g with
    | zero => rfl
    | succ g =>
      rw [backwardSearchGo, backwardSearchGo]
      rw [if_neg]
      intro hc
      omega
  | succ f ih =>
    intro g start hf hg
    cases g with
    | zero =>
      rw [backwardSearchGo, backwardSearchGo]
      rw [if_neg]
      intro hc
      omega
    | succ g =>
      rw [backwardSearchGo, backwardSearchGo]
      split
      · next hc => exact ih g (start - step) (by omega) (by omega)
      · rfl

/-- C6: for sample rate hz >= 1 and 0 <= start_slice <= end_slice <=
len(data), both edge searches of the candidate scanner terminate (their
fuel-indexed unrollings are stable at any fuel beyond the canonical bound,
which is exactly the termination of the source while-True loops), the
forward search returns a stop index between end_slice and len(data), and the
backward search returns a start index between 0 and start_slice. -/
theorem edge_search_terminates_and_bounded (data : List Tri) (start_slice end_slice : ℕ)
    (std_max : ℚ) (hz : ℕ) (hhz : 1 ≤ hz) (h1 : start_slice ≤ end_slice)
    (h2 : end_slice ≤ data.length) :
    (∀ extra, forwardSearchGo data start_slice std_max (60 * hz)
        (data.length + 1 + extra) end_slice
      = forward_search_non_wear_time data start_slice end_slice std_max hz) ∧
    (∀ extra, backwardSearchGo data end_slice std_max (60 * hz)
        (start_slice + 1 + extra) start_slice
      = backward_search_non_wear_time data start_slice end_slice std_max hz) ∧
    end_slice ≤ forward_search_non_wear_time data start_slice end_slice std_max hz ∧
    forward_search_non_wear_time data start_slice end_slice std_max hz ≤ data.length ∧
    backward_search_non_wear_time data start_slice end_slice std_max hz ≤ start_slice := by
  have hstep : 0 < 60 * hz := by omega
  refine ⟨?_, ?_, ?_, ?_, ?_⟩
  · intro extra
    exact forwardSearchGo_congr data start_slice std_max (60 * hz) hstep _ _ _
      (by omega) (by omega)
  · intro extra
    exact backwardSearchGo_congr data end_slice std_max (60 * hz) hstep _ _ _
      (by omega) (by omega)
  · exact le_forwardSearchGo data start_slice std_max (60 * hz) _ end_slice
  · exact forwardSearchGo_le data start_slice std_max (60 * hz) _ end_slice h2
  · exact backwardSearchGo_le data end_slice std_max (60 * hz) _ start_slice

theorem edge_search_bounds_example :
    (1 : ℕ) ≤ 1 ∧ (0 : ℕ) ≤ 1 ∧
    (1 : ℕ) ≤ [((0 : ℚ), (0 : ℚ), (0 : ℚ)), ((1 : ℚ), (1 : ℚ), (1 : ℚ))].length ∧
    1 ≤ forward_search_non_wear_time
        [((0 : ℚ), (0 : ℚ), (0 : ℚ)), ((1 : ℚ), (1 : ℚ), (1 : ℚ))] 0 1 (1 / 250) 1 ∧
    backward_search_non_wear_time
        [((0 : ℚ), (0 : ℚ), (0 : ℚ)), ((1 : ℚ), (1 : ℚ), (1 : ℚ))] 0 1 (1 / 250) 1 ≤ 0 := by
  refine ⟨le_rfl, by omega, by simp, ?_, ?_⟩
  · exact (edge_search_terminates_and_bounded _ 0 1 (1 / 250) 1 le_rfl (by omega)
      (by simp)).2.2.1
  · exact (edge_search_terminates_and_bounded _ 0 1 (1 / 250) 1 le_rfl (by omega)
      (by simp)).2.2.2.2

/-! Merging of two consecutive candidate runs. -/

lemma group_two_eval (hz d corr : ℕ) (r1 r2 : NwRun) :
    group_episodes [r1, r2] d corr hz =
      if r2.start_index - r1.stop_index ≤ hz * 60 * d + corr then
        [⟨r1.counter, r2.counter, r1.start_index, r1.start, r2.stop_index, r2.stop⟩]
      else
        (if r2.counter - r1.counter = 1 then
          [⟨r1.counter, r1.counter, r1.start_index, r1.start, r1.stop_index, r1.stop⟩,
           ⟨r2.counter, r2.counter, r2.start_index, r2.start, r2.stop_index, r2.stop⟩]
        else
          [⟨r1.counter, r2.counter - 1, r1.start_index, r1.start, r1.stop_index, r1.stop⟩,
           ⟨r2.counter, r2.counter, r2.start_index, r2.start, r2.stop_index, r2.stop⟩]) := by
  show groupEpisodesLoop hz d corr (([r2].getLast?.getD r1).counter) [r2] r1 [] = _
  by_cases hc : r2.start_index - r1.stop_index ≤ hz * 60 * d + corr
  · simp [groupEpisodesLoop, hc]
  · by_cases h1 : r2.counter - r1.counter = 1
    · simp [groupEpisodesLoop, hc, h1]
    · simp [groupEpisodesLoop, hc, h1]

/-- C4: in episode merging two consecutive runs are absorbed into one episode
exactly when the next start index minus the current stop index is at most
distance_in_min * 60 * sample_rate plus the correction; in particular a gap
of exactly distance_in_min minutes of samples merges, and a gap of
distance_in_min + 1 minutes (with the correction smaller than a minute)
leaves two episodes. -/
theorem group_episodes_gap_condition (hz d corr : ℕ) (r1 r2 : NwRun)
    (hsort : r1.stop_index ≤ r2.start_index) :
    ((group_episodes [r1, r2] d corr hz).length = 1 ↔
      r2.start_index - r1.stop_index ≤ d * 60 * hz + corr) ∧
    (r2.start_index - r1.stop_index = d * 60 * hz →
      (group_episodes [r1, r2] d corr hz).length = 1) ∧
    (r2.start_index - r1.stop_index = (d + 1) * 60 * hz → corr < 60 * hz →
      (group_episodes [r1, r2] d corr hz).length = 2) := by
  have e1 : d * 60 * hz = hz * 60 * d := by ring
  have e2 : (d + 1) * 60 * hz = hz * 60 * d + 60 * hz := by ring
  rw [group_two_eval]
  refine ⟨?_, ?_, ?_⟩
  · constructor
    · intro h
      by_contra hgap
      rw [if_neg (by omega)] at h
      split at h <;> simp at h
    · intro hgap
      rw [if_pos (by omega)]
      simp
  · intro hgap
    rw [if_pos (by omega)]
    simp
  · intro hgap hcorr
    rw [if_neg (by omega)]
    split <;> simp

theorem group_episodes_gap_condition_example :
    (⟨0, 0, 0, 5, 5⟩ : NwRun).stop_index ≤ (⟨1, 30008, 30008, 40000, 40000⟩ : NwRun).start_index ∧
    ((group_episodes [⟨0, 0, 0, 5, 5⟩, ⟨1, 30008, 30008, 40000, 40000⟩] 5 3 100).length = 1 ↔
      (⟨1, 30008, 30008, 40000, 40000⟩ : NwRun).start_index - (⟨0, 0, 0, 5, 5⟩ : NwRun).stop_index ≤
        5 * 60 * 100 + 3) :=
  ⟨by decide,
   (group_episodes_gap_condition 100 5 3 ⟨0, 0, 0, 5, 5⟩ ⟨1, 30008, 30008, 40000, 40000⟩
      (by decide)).1⟩

/-! Undersized edge feature windows always fall back to the default label. -/

lemma pySlice_length_lt_of_start_lt {acc : List Tri} {w s : ℕ}
    (hs : s < w) : (pySlice acc ((s : ℤ) - (w : ℤ)) (s : ℤ)).length < w :=
  lt_of_le_of_lt
    (le_trans (pySlice_length_le acc _ _) (sliceIdx_natCast_le acc.length s)) hs

/-- C10: whenever a merged episode's refined start index is strictly below
episode_window_sec * hz, the extracted start window (a Python slice with a
negative start index) has strictly fewer than episode_window_sec * hz
samples, so the classifier can never see a wrapped-around slice: the start
label is the edge default for every classifier. -/
theorem start_window_undersized_below_window (acc : List Tri) (w s : ℕ)
    (edge_true_or_false : Bool) (hw : 1 ≤ w) (hs : s < w) :
    (pySlice acc ((s : ℤ) - (w : ℤ)) (s : ℤ)).length < w ∧
    ∀ classify : List Tri → ℕ,
      startLabel acc w edge_true_or_false classify s = edge_true_or_false := by
  refine ⟨pySlice_length_lt_of_start_lt hs, ?_⟩
  intro classify
  unfold startLabel
  rw [if_neg]
  exact Nat.ne_of_lt (pySlice_length_lt_of_start_lt hs)

theorem start_window_undersized_below_window_example :
    (1 : ℕ) ≤ 700 ∧ (650 : ℕ) < 700 ∧
    (∀ classify : List Tri → ℕ,
      startLabel [((0 : ℚ), (0 : ℚ), (0 : ℚ))] 700 true classify 650 = true) :=
  ⟨by omega, by omega,
   (start_window_undersized_below_window [((0 : ℚ), (0 : ℚ), (0 : ℚ))] 700 650 true
      (by omega) (by omega)).2⟩

/-- C7: an episode whose refined start is at index 0, and symmetrically one
whose refined stop reaches the end of the stream, has an undersized edge
feature window (empty, in fact), so that edge's label is the configured edge
default and the classifier is not consulted for it, whatever classifier is
supplied. -/
theorem boundary_episode_edges_use_default (acc : List Tri) (w : ℕ)
    (edge_true_or_false : Bool) (hw : 1 ≤ w) :
    (pySlice acc ((0 : ℤ) - (w : ℤ)) (0 : ℤ)).length < w ∧
    (pySlice acc ((acc.length : ℤ)) ((acc.length + w : ℕ) : ℤ)).length < w ∧
    (∀ classify : List Tri → ℕ,
      startLabel acc w edge_true_or_false classify 0 = edge_true_or_false) ∧
    (∀ classify : List Tri → ℕ,
      stopLabel acc w edge_true_or_false classify acc.length = edge_true_or_false) := by
  have hstart : (pySlice acc ((0 : ℤ) - (w : ℤ)) (0 : ℤ)).length < w := by
    simpa using @pySlice_length_lt_of_start_lt acc w 0 hw
  have hstop : (pySlice acc ((acc.length : ℤ)) ((acc.length + w : ℕ) : ℤ)).length < w := by
    have hlen : (pySlice acc ((acc.length : ℤ)) ((acc.length + w : ℕ) : ℤ)).length = 0 := by
      have ha : sliceIdx acc.length (acc.length : ℤ) = acc.length := by
        unfold sliceIdx
        rw [if_neg (by omega)]
        omega
      have hb : sliceIdx acc.length ((acc.length + w : ℕ) : ℤ) = acc.length := by
        unfold sliceIdx
        rw [if_neg (by omega)]
        omega
      unfold pySlice
      rw [ha, hb, Nat.sub_self]
      simp
    omega
  refine ⟨hstart, hstop, ?_, ?_⟩
  · intro classify
    unfold startLabel
    rw [if_neg (Nat.ne_of_lt (by simpa using hstart))]
  · intro classify
    unfold stopLabel
    rw [if_neg (Nat.ne_of_lt hstop)]

theorem boundary_episode_edges_use_default_example :
    (1 : ℕ) ≤ 700 ∧
    (∀ classify : List Tri → ℕ,
      startLabel [((0 : ℚ), (0 : ℚ), (0 : ℚ))] 700 false classify 0 = false) ∧
    (∀ classify : List Tri → ℕ,
      stopLabel [((0 : ℚ), (0 : ℚ), (0 : ℚ))] 700 false classify
        [((0 : ℚ), (0 : ℚ), (0 : ℚ))].length = false) :=
  ⟨by omega,
   (boundary_episode_edges_use_default [((0 : ℚ), (0 : ℚ), (0 : ℚ))] 700 false
      (by omega)).2.2.1,
   (boundary_episode_edges_use_default [((0 : ℚ), (0 : ℚ), (0 : ℚ))] 700 false
      (by omega)).2.2.2⟩

/-! Length of the output vector and the fatal-configuration behaviour of the
engine. -/

lemma resample_acceleration_length (data : List Tri) (from_hz to_hz : ℕ) :
    (resample_acceleration data from_hz to_hz).length = data.length * to_hz / from_hz := by
  simp [resample_acceleration]

lemma processEpisodes_ok_length (acc : List Tri) (classify : List Tri → ℕ)
    (t : ℚ) (w : ℕ) (edge : Bool) (rule : String) (nwt : ℕ) :
    ∀ (eps : List GroupedEpisode) (v : List ℕ) (idxs : List (ℕ × ℕ))
      (v' : List ℕ) (idxs' : List (ℕ × ℕ)),
      processEpisodes acc classify t w edge rule nwt eps (v, idxs) = .ok (v', idxs') →
      v'.length = v.length := by
  intro eps
  induction eps with
  | nil =>
    intro v idxs v' idxs' h
    simp only [processEpisodes, Except.ok.injEq, Prod.mk.injEq] at h
    rw [← h.1]
  | cons ep rest ih =>
    intro v idxs v' idxs' h
    simp only [processEpisodes] at h
    split at h
    · split at h
      · have := ih _ _ _ _ h
        rwa [setRange_length] at this
      · exact ih _ _ _ _ h
    · split at h
      · split at h
        · have := ih _ _ _ _ h
          rwa [setRange_length] at this
        · exact ih _ _ _ _ h
      · cases h

/-- C2 (amended): the Output Vector has exactly as many samples as the stream
the engine processes after resampling: for hz = 100 that is the input Sample
Stream itself, while for any other accepted hz the stream is first resampled
to 100 Hz, so the output length is the resampled length
len * 100 / hz rather than the input length. -/
theorem output_vector_length (raw : List Tri) (hz : ℕ) (classify : List Tri → ℕ)
    (t : ℚ) (d esw : ℕ) (edge : Bool) (rule : String) (nwt wt msl sw : ℕ)
    (v : List ℕ) (idxs : List (ℕ × ℕ))
    (h : cnn_nw_algorithm raw hz classify t d esw edge rule nwt wt msl sw
      = .ok (v, idxs)) :
    v.length = (preprocessed raw hz).length ∧
    (hz = 100 → v.length = raw.length) ∧
    (hz ≠ 100 → v.length = raw.length * 100 / hz) := by
  simp only [cnn_nw_algorithm] at h
  split at h
  · cases h
  · have hlen := processEpisodes_ok_length _ _ _ _ _ _ _ _ _ _ _ _ h
    rw [List.length_replicate] at hlen
    refine ⟨hlen, ?_, ?_⟩
    · intro h100
      rw [hlen, preprocessed, if_pos h100]
    · intro h100
      rw [hlen, preprocessed, if_neg h100, resample_acceleration_length]

theorem output_vector_length_example :
    cnn_nw_algorithm [((0 : ℚ), (0 : ℚ), (0 : ℚ)), ((0 : ℚ), (0 : ℚ), (0 : ℚ))] 100
        (fun _ => 0) (1 / 250) 5 7 true "and" 1 0 0 1 = .ok ([0, 0], [(0, 0)]) ∧
    ([0, 0] : List ℕ).length =
      [((0 : ℚ), (0 : ℚ), (0 : ℚ)), ((0 : ℚ), (0 : ℚ), (0 : ℚ))].length := by
  have h : cnn_nw_algorithm [((0 : ℚ), (0 : ℚ), (0 : ℚ)), ((0 : ℚ), (0 : ℚ), (0 : ℚ))] 100
      (fun _ => 0) (1 / 250) 5 7 true "and" 1 0 0 1 = .ok ([0, 0], [(0, 0)]) := by decide
  exact ⟨h, (output_vector_length _ _ _ _ _ _ _ _ _ _ _ _ _ _ h).2.1 rfl⟩

/-- C2 counterexample: at hz = 50 a one-sample stream is resampled to 100 Hz
before the output vector is allocated, so the engine succeeds with an Output
Vector of 2 samples although the input Sample Stream has 1 sample: the
length equality fails for accepted sample rates other than 100. -/
theorem output_vector_length_counterexample :
    cnn_nw_algorithm [((0 : ℚ), (0 : ℚ), (0 : ℚ))] 50 (fun _ => 0) (1 / 250) 5 7 true
        "and" 1 0 1 1 = .ok ([0, 0], []) ∧
    ([0, 0] : List ℕ).length ≠ [((0 : ℚ), (0 : ℚ), (0 : ℚ))].length := by
  constructor
  · decide
  · decide

lemma processEpisodes_invalid_rule (acc : List Tri) (classify : List Tri → ℕ)
    (t : ℚ) (w : ℕ) (edge : Bool) (rule : String) (nwt : ℕ)
    (ep : GroupedEpisode) (rest : List GroupedEpisode) (v : List ℕ)
    (idxs : List (ℕ × ℕ)) (hr1 : rule ≠ "or") (hr2 : rule ≠ "and") :
    processEpisodes acc classify t w edge rule nwt (ep :: rest) (v, idxs)
      = .error .invalidDecisionRule := by
  simp [processEpisodes, hr1, hr2]

/-- C3 (amended): a decision rule other than "and" and "or" is only detected
inside the per-episode loop, so the engine fails with a fatal error exactly
when at least one merged candidate episode exists (or when the encodings
already coincide); on streams with no merged candidate episode the engine
returns normally despite the invalid rule. -/
theorem invalid_rule_fatal_when_episode_exists (raw : List Tri) (hz : ℕ)
    (classify : List Tri → ℕ) (t : ℚ) (d esw : ℕ) (edge : Bool) (rule : String)
    (nwt wt msl sw : ℕ) (hr1 : rule ≠ "and") (hr2 : rule ≠ "or")
    (hne : mergedEpisodesOf (preprocessed raw hz) t d msl sw ≠ []) :
    ∃ e, cnn_nw_algorithm raw hz classify t d esw edge rule nwt wt msl sw
      = .error e := by
  simp only [cnn_nw_algorithm]
  split
  · exact ⟨.invalidEncoding, rfl⟩
  · obtain ⟨ep, rest, hm⟩ := List.exists_cons_of_ne_nil hne
    rw [hm]
    exact ⟨.invalidDecisionRule, processEpisodes_invalid_rule _ _ _ _ _ _ _ _ _ _ _ hr2 hr1⟩

theorem invalid_rule_fatal_when_episode_exists_example :
    ("xor" ≠ "and") ∧ ("xor" ≠ "or") ∧
    mergedEpisodesOf
      (preprocessed [((0 : ℚ), (0 : ℚ), (0 : ℚ)), ((0 : ℚ), (0 : ℚ), (0 : ℚ))] 100)
      (1 / 250) 5 0 1 ≠ [] ∧
    (∃ e, cnn_nw_algorithm [((0 : ℚ), (0 : ℚ), (0 : ℚ)), ((0 : ℚ), (0 : ℚ), (0 : ℚ))] 100
      (fun _ => 0) (1 / 250) 5 7 true "xor" 1 0 0 1 = .error e) :=
  ⟨by decide, by decide, by decide,
   invalid_rule_fatal_when_episode_exists _ 100 _ (1 / 250) 5 7 true "xor" 1 0 0 1
     (by decide) (by decide) (by decide)⟩

/-- C3 counterexample: with the invalid decision rule "xor" on a stream
without any merged candidate episode (its single window has a high
dispersion), the engine does not fail: it returns a normal result, the
all-wear vector and an empty interval list. -/
theorem invalid_rule_counterexample :
    cnn_nw_algorithm [((0 : ℚ), (0 : ℚ), (0 : ℚ)), ((1 : ℚ), (1 : ℚ), (1 : ℚ))] 100
      (fun _ => 0) (1 / 250) 5 7 true "xor" 1 0 1 1 = .ok ([0, 0], []) := by
  decide

/-! Relation between the output vector and the emitted interval list. -/

lemma processEpisodes_ok_spec (acc : List Tri) (classify : List Tri → ℕ)
    (t : ℚ) (w : ℕ) (edge : Bool) (rule : String) (nwt : ℕ) :
    ∀ (eps : List GroupedEpisode) (v : List ℕ) (idxs : List (ℕ × ℕ))
      (v' : List ℕ) (idxs' : List (ℕ × ℕ)),
      processEpisodes acc classify t w edge rule nwt eps (v, idxs) = .ok (v', idxs') →
      ∃ news, idxs' = idxs ++ news ∧
        ∀ i, i < v.length →
          v'.getD i 0 =
            if ∃ p ∈ news, p.1 ≤ i ∧ i < p.2 then nwt % 256 else v.getD i 0 := by
  intro eps
  induction eps with
  | nil =>
    intro v idxs v' idxs' h
    simp only [processEpisodes, Except.ok.injEq, Prod.mk.injEq] at h
    refine ⟨[], by simp [← h.2], ?_⟩
    intro i hi
    simp [← h.1]
  | cons ep rest ih =>
    intro v idxs v' idxs' h
    have main :
        ∀ s2 t2 : ℕ,
          processEpisodes acc classify t w edge rule nwt rest
            (setRange v s2 t2 (nwt % 256), idxs ++ [(s2, t2)]) = .ok (v', idxs') →
          ∃ news, idxs' = idxs ++ news ∧
            ∀ i, i < v.length →
              v'.getD i 0 =
                if ∃ p ∈ news, p.1 ≤ i ∧ i < p.2 then nwt % 256 else v.getD i 0 := by
      intro s2 t2 hrec
      obtain ⟨news', hidx, hpt⟩ := ih _ _ _ _ hrec
      refine ⟨(s2, t2) :: news', by simpa using hidx, ?_⟩
      intro i hi
      have hi' : i < (setRange v s2 t2 (nwt % 256)).length := by
        rwa [setRange_length]
      have h1 := hpt i hi'
      rw [getD_setRange v s2 t2 (nwt % 256) i hi] at h1
      rw [h1]
      by_cases hmem : ∃ p ∈ news', p.1 ≤ i ∧ i < p.2
      · rw [if_pos hmem, if_pos (by simpa using Or.inr hmem)]
      · rw [if_neg hmem]
        by_cases hcov : s2 ≤ i ∧ i < t2
        · rw [if_pos hcov, if_pos (by simpa using Or.inl hcov)]
        · rw [if_neg hcov, if_neg (by simpa using not_or.mpr ⟨hcov, hmem⟩)]
    simp only [processEpisodes] at h
    split at h
    · split at h
      · exact main _ _ h
      · obtain ⟨news', hidx, hpt⟩ := ih _ _ _ _ h
        exact ⟨news', hidx, hpt⟩
    · split at h
      · split at h
        · exact main _ _ h
        · obtain ⟨news', hidx, hpt⟩ := ih _ _ _ _ h
          exact ⟨news', hidx, hpt⟩
      · cases h

/-- C1: for every input stream and configuration with representable (uint8)
encodings, whenever the engine returns a result, a sample inside the
half-open range of some confirmed interval of the Output Interval List holds
the non-wear encoding and every other sample holds the wear encoding: the
vector is allocated all-wear and written exactly by the committed confirmed
episodes. -/
theorem output_vector_encodes_confirmed_intervals (raw : List Tri) (hz : ℕ)
    (classify : List Tri → ℕ) (t : ℚ) (d esw : ℕ) (edge : Bool) (rule : String)
    (nwt wt msl sw : ℕ) (v : List ℕ) (idxs : List (ℕ × ℕ))
    (hnwt : nwt < 256) (hwt : wt < 256)
    (h : cnn_nw_algorithm raw hz classify t d esw edge rule nwt wt msl sw
      = .ok (v, idxs)) :
    ∀ i, i < v.length →
      v.getD i 0 = if ∃ p ∈ idxs, p.1 ≤ i ∧ i < p.2 then nwt else wt := by
  have hlen := processEpisodes_ok_length
  simp only [cnn_nw_algorithm] at h
  split at h
  · cases h
  · have hvlen := processEpisodes_ok_length _ _ _ _ _ _ _ _ _ _ _ _ h
    rw [List.length_replicate] at hvlen
    obtain ⟨news, hidx, hpt⟩ := processEpisodes_ok_spec _ _ _ _ _ _ _ _ _ _ _ _ h
    intro i hi
    have hin : i < (preprocessed raw hz).length := by omega
    have h2 := hpt i (by simpa using hin)
    rw [getD_replicate _ _ _ hin] at h2
    rw [h2, Nat.mod_eq_of_lt hnwt, Nat.mod_eq_of_lt hwt]
    simp only [List.nil_append] at hidx
    rw [hidx]

theorem output_vector_encodes_confirmed_intervals_example :
    cnn_nw_algorithm [((0 : ℚ), (0 : ℚ), (0 : ℚ)), ((0 : ℚ), (0 : ℚ), (0 : ℚ))] 100
        (fun _ => 0) (1 / 250) 5 7 true "and" 1 0 0 1 = .ok ([0, 0], [(0, 0)]) ∧
    (1 : ℕ) < 256 ∧ (0 : ℕ) < 256 ∧ (0 : ℕ) < ([0, 0] : List ℕ).length ∧
    ([0, 0] : List ℕ).getD 0 0 =
      (if ∃ p ∈ ([(0, 0)] : List (ℕ × ℕ)), p.1 ≤ 0 ∧ 0 < p.2 then 1 else 0) := by
  have h : cnn_nw_algorithm [((0 : ℚ), (0 : ℚ), (0 : ℚ)), ((0 : ℚ), (0 : ℚ), (0 : ℚ))] 100
      (fun _ => 0) (1 / 250) 5 7 true "and" 1 0 0 1 = .ok ([0, 0], [(0, 0)]) := by decide
  exact ⟨h, by omega, by omega, by decide,
    output_vector_encodes_confirmed_intervals _ _ _ _ _ _ _ _ _ _ _ _ _ _
      (by omega) (by omega) h 0 (by decide)⟩

/-! Pointwise characterisation of the candidate scan (paint folds). -/

lemma foldl_update_length {β : Type} (upd : List ℕ → β → List ℕ)
    (hlen : ∀ v b, (upd v b).length = v.length) :
    ∀ (items : List β) (v : List ℕ), (items.foldl upd v).length = v.length := by
  intro items
  induction items with
  | nil => intro v; rfl
  | cons b bs ih => intro v; rw [List.foldl_cons, ih, hlen]

lemma foldl_update_zero {β : Type} (upd : List ℕ → β → List ℕ) (P : β → ℕ → Prop)
    (hlen : ∀ v b, (upd v b).length = v.length)
    (hget : ∀ v b i, i < v.length →
      ((upd v b).getD i 0 = 0 ↔ (v.getD i 0 = 0 ∨ P b i))) :
    ∀ (items : List β) (v : List ℕ) (i : ℕ), i < v.length →
      ((items.foldl upd v).getD i 0 = 0 ↔
        (v.getD i 0 = 0 ∨ ∃ b ∈ items, P b i)) := by
  intro items
  induction items with
  | nil =>
    intro v i hi
    simp
  | cons b bs ih =>
    intro v i hi
    rw [List.foldl_cons]
    rw [ih (upd v b) i (by rw [hlen]; exact hi)]
    rw [hget v b i hi]
    simp only [List.mem_cons]
    constructor
    · rintro ((h0 | hP) | ⟨b', hb', hP'⟩)
      · exact Or.inl h0
      · exact Or.inr ⟨b, Or.inl rfl, hP⟩
      · exact Or.inr ⟨b', Or.inr hb', hP'⟩
    · rintro (h0 | ⟨b', (rfl | hb'), hP'⟩)
      · exact Or.inl (Or.inl h0)
      · exact Or.inl (Or.inr hP')
      · exact Or.inr ⟨b', hb', hP'⟩

lemma candidateInitialVector_length (acc : List Tri) (t : ℚ) (hz sw : ℕ) :
    (candidateInitialVector acc t hz sw).length = acc.length := by
  unfold candidateInitialVector
  rw [foldl_update_length _ ?hlen, List.length_replicate]
  case hlen =>
    intro v b
    dsimp only
    split
    · exact setRange_length _ _ _ _
    · rfl

lemma candidateInitialVector_zero_iff (acc : List Tri) (t : ℚ) (hz sw j : ℕ)
    (hj : j < acc.length) :
    (candidateInitialVector acc t hz sw).getD j 0 = 0 ↔
      ∃ k ∈ windowStarts acc.length (sw * hz * 60),
        stdAllLe (pySlice acc (k : ℤ) ((k + sw * hz * 60 : ℕ) : ℤ)) t = true ∧
        k ≤ j ∧ j < k + sw * hz * 60 := by
  unfold candidateInitialVector
  rw [foldl_update_zero _
    (fun (k j : ℕ) => stdAllLe (pySlice acc (k : ℤ) ((k + sw * hz * 60 : ℕ) : ℤ)) t = true ∧
      k ≤ j ∧ j < k + sw * hz * 60) ?hlen ?hget _ _ j (by simpa using hj)]
  · rw [getD_replicate _ _ _ hj]
    simp
  case hlen =>
    intro v b
    dsimp only
    split
    · exact setRange_length _ _ _ _
    · rfl
  case hget =>
    intro v b i hi
    dsimp only
    split
    · next hC =>
      rw [getD_setRange _ _ _ _ _ hi]
      by_cases hcov : b ≤ i ∧ i < b + sw * hz * 60
      · rw [if_pos hcov]
        simp only [eq_self_iff_true, true_iff]
        tauto
      · rw [if_neg hcov]
        tauto
    · next hC =>
      tauto

lemma mem_windowStarts_iff (n W k : ℕ) (hW : 0 < W) :
    k ∈ windowStarts n W ↔ ∃ m, k = m * W ∧ m * W < n := by
  unfold windowStarts
  rw [if_neg (by omega)]
  simp only [List.mem_map, List.mem_range]
  constructor
  · rintro ⟨m, hm, rfl⟩
    refine ⟨m, rfl, ?_⟩
    have h1 : m + 1 ≤ (n + W - 1) / W := hm
    have h2 : (m + 1) * W ≤ n + W - 1 := (Nat.le_div_iff_mul_le hW).mp h1
    have h3 : (m + 1) * W = m * W + W := by ring
    omega
  · rintro ⟨m, rfl, hmn⟩
    refine ⟨m, ?_, rfl⟩
    have h3 : (m + 1) * W = m * W + W := by ring
    have h2 : (m + 1) * W ≤ n + W - 1 := by omega
    have h1 : m + 1 ≤ (n + W - 1) / W := (Nat.le_div_iff_mul_le hW).mpr h2
    omega

lemma window_of_sample (n W j : ℕ) (hW : 0 < W) (hj : j < n) :
    ∀ Q : ℕ → Prop,
      ((∃ k ∈ windowStarts n W, Q k ∧ k ≤ j ∧ j < k + W) ↔ Q (W * (j / W))) := by
  intro Q
  have hdm := Nat.div_add_mod j W
  have hmod : j % W < W := Nat.mod_lt _ hW
  constructor
  · rintro ⟨k, hk, hQ, hkj, hjk⟩
    obtain ⟨m, rfl, hmn⟩ := (mem_windowStarts_iff n W k hW).mp hk
    have hm : j / W = m := by
      refine Nat.div_eq_of_lt_le (by omega) ?_
      have h3 : (m + 1) * W = m * W + W := by ring
      omega
    rw [hm]
    rwa [Nat.mul_comm] at hQ
  · intro hQ
    refine ⟨W * (j / W), ?_, hQ, ?_, ?_⟩
    · rw [mem_windowStarts_iff n W _ hW]
      have hcomm : (j / W) * W = W * (j / W) := Nat.mul_comm _ _
      exact ⟨j / W, by ring, by omega⟩
    · omega
    · omega

lemma find_candidate_length (acc : List Tri) (t : ℚ) (hz msl sw : ℕ) :
    (find_candidate_non_wear_segments_from_raw acc t hz msl sw).length = acc.length := by
  unfold find_candidate_non_wear_segments_from_raw
  rw [foldl_update_length _ ?hlen, List.length_replicate]
  case hlen =>
    intro v b
    dsimp only
    split
    · split
      · exact setRange_length _ _ _ _
      · rfl
    · rfl

lemma find_candidate_zero_iff (acc : List Tri) (t : ℚ) (hz msl sw j : ℕ)
    (hj : j < acc.length) :
    (find_candidate_non_wear_segments_from_raw acc t hz msl sw).getD j 0 = 0 ↔
      ∃ row ∈ find_consecutive_index_ranges
          (zeroIndexes (candidateInitialVector acc t hz sw)),
        row ≠ [] ∧
        msl * hz * 60 ≤ refinedRunStop acc t hz row - refinedRunStart acc t hz row ∧
        refinedRunStart acc t hz row ≤ j ∧ j < refinedRunStop acc t hz row := by
  unfold find_candidate_non_wear_segments_from_raw
  rw [foldl_update_zero _
    (fun (row : List ℕ) (j : ℕ) =>
      row ≠ [] ∧
      msl * hz * 60 ≤ refinedRunStop acc t hz row - refinedRunStart acc t hz row ∧
      refinedRunStart acc t hz row ≤ j ∧ j < refinedRunStop acc t hz row)
    ?hlen ?hget _ _ j (by simpa using hj)]
  · rw [getD_replicate _ _ _ hj]
    simp
  case hlen =>
    intro v b
    dsimp only
    split
    · split
      · exact setRange_length _ _ _ _
      · rfl
    · rfl
  case hget =>
    intro v b i hi
    dsimp only
    split
    · next hne =>
      split
      · next hlong =>
        rw [getD_setRange _ _ _ _ _ hi]
        by_cases hcov : refinedRunStart acc t hz b ≤ i ∧ i < refinedRunStop acc t hz b
        · rw [if_pos hcov]
          simp only [eq_self_iff_true, true_iff]
          tauto
        · rw [if_neg hcov]
          tauto
      · next hlong => tauto
    · next hne => tauto

/-- C5: the candidate scan marks a sample as non-wear candidate exactly when
the consecutive sliding_window-minute window containing it has all per-axis
dispersions at or below the threshold (default state wear), and the final
candidate vector marks a sample exactly when it lies in the boundary-refined
extent of some maximal marked run whose refined length reaches
min_segment_length minutes; shorter refined runs are discarded. -/
theorem candidate_scan_characterisation (acc : List Tri) (t : ℚ)
    (hz msl sw : ℕ) (hhz : 1 ≤ hz) (hsw : 1 ≤ sw) (j : ℕ) (hj : j < acc.length) :
    ((candidateInitialVector acc t hz sw).getD j 0 = 0 ↔
      stdAllLe (pySlice acc ((sw * hz * 60 * (j / (sw * hz * 60)) : ℕ) : ℤ)
        ((sw * hz * 60 * (j / (sw * hz * 60)) + sw * hz * 60 : ℕ) : ℤ)) t = true) ∧
    ((find_candidate_non_wear_segments_from_raw acc t hz msl sw).getD j 0 = 0 ↔
      ∃ row ∈ find_consecutive_index_ranges
          (zeroIndexes (candidateInitialVector acc t hz sw)),
        row ≠ [] ∧
        msl * hz * 60 ≤ refinedRunStop acc t hz row - refinedRunStart acc t hz row ∧
        refinedRunStart acc t hz row ≤ j ∧ j < refinedRunStop acc t hz row) := by
  have hW : 0 < sw * hz * 60 := by positivity
  constructor
  · rw [candidateInitialVector_zero_iff acc t hz sw j hj]
    exact window_of_sample acc.length (sw * hz * 60) j hW hj
      (fun k => stdAllLe (pySlice acc (k : ℤ) ((k + sw * hz * 60 : ℕ) : ℤ)) t = true)
  · exact find_candidate_zero_iff acc t hz msl sw j hj

theorem candidate_scan_characterisation_example :
    (1 : ℕ) ≤ 1 ∧
    (0 : ℕ) < [((0 : ℚ), (0 : ℚ), (0 : ℚ)), ((0 : ℚ), (0 : ℚ), (0 : ℚ))].length ∧
    ((candidateInitialVector [((0 : ℚ), (0 : ℚ), (0 : ℚ)), ((0 : ℚ), (0 : ℚ), (0 : ℚ))]
        (1 / 250) 1 1).getD 0 0 = 0 ↔
      stdAllLe (pySlice [((0 : ℚ), (0 : ℚ), (0 : ℚ)), ((0 : ℚ), (0 : ℚ), (0 : ℚ))]
        ((1 * 1 * 60 * (0 / (1 * 1 * 60)) : ℕ) : ℤ)
        ((1 * 1 * 60 * (0 / (1 * 1 * 60)) + 1 * 1 * 60 : ℕ) : ℤ)) (1 / 250) = true) :=
  ⟨le_rfl, by decide,
   (candidate_scan_characterisation [((0 : ℚ), (0 : ℚ), (0 : ℚ)), ((0 : ℚ), (0 : ℚ), (0 : ℚ))]
      (1 / 250) 1 0 1 le_rfl le_rfl 0 (by decide)).1⟩

/-! Structure of the merged episode list: a partition of the input runs into
consecutive blocks. -/

lemma blockStop_cons (a : NwRun) (l : List NwRun) :
    blockStop (a :: l) = (l.getLast?.getD a).stop_index := by
  simp [blockStop, List.getLast?_cons]

lemma geLoop_blocks (hz d corr : ℕ) :
    ∀ (rows : List NwRun) (c : ℕ) (cur : NwRun) (acc : List GroupedEpisode),
      rows ≠ [] →
      (∀ i (h : i < rows.length), (rows.get ⟨i, h⟩).counter = c + i) →
      ∀ lastCounter, lastCounter = c + (rows.length - 1) →
      ∃ (b1 : List NwRun) (blocks : List (List NwRun)),
        (∀ b ∈ blocks, b ≠ []) ∧ b1 ++ blocks.join = rows ∧
        (groupEpisodesLoop hz d corr lastCounter rows cur acc).map
            (fun g => (g.start_index, g.stop_index)) =
          acc.map (fun g => (g.start_index, g.stop_index)) ++
          ((cur.start_index, blockStop (cur :: b1)) ::
            blocks.map (fun b => (blockStart b, blockStop b))) := by
  intro rows
  induction rows with
  | nil => intro c cur acc hne; exact absurd rfl hne
  | cons row rest ih =>
    intro c cur acc hne hctr lastCounter hlast
    have hrowc : row.counter = c := by
      have := hctr 0 (by simp)
      simpa using this
    cases rest with
    | nil =>
      have hrl : row.counter = lastCounter := by
        simp at hlast
        omega
      simp only [groupEpisodesLoop, hrl, eq_self_iff_true, if_true]
      split
      · next hgap =>
        refine ⟨[row], [], by simp, by simp, ?_⟩
        simp [blockStop_cons]
      · next hgap =>
        refine ⟨[], [[row]], by simp, by simp, ?_⟩
        simp [blockStop_cons, blockStart, blockStop]
    | cons r2 rest' =>
      have hrl : row.counter ≠ lastCounter := by
        simp only [List.length_cons] at hlast
        omega
      have hctr' : ∀ i (h : i < (r2 :: rest').length),
          ((r2 :: rest').get ⟨i, h⟩).counter = (c + 1) + i := by
        intro i h
        have := hctr (i + 1) (by simpa using Nat.succ_lt_succ h)
        simpa [Nat.add_assoc, Nat.add_comm 1 i] using this
      have hlast' : lastCounter = (c + 1) + ((r2 :: rest').length - 1) := by
        simp only [List.length_cons] at hlast ⊢
        omega
      rw [groupEpisodesLoop]
      simp only [if_neg hrl]
      split
      · next hgap =>
        obtain ⟨b1', blocks', hbne, hjoin, hmap⟩ :=
          ih (c + 1) { cur with stop_index := row.stop_index, stop := row.stop } acc
            (by simp) hctr' lastCounter hlast'
        refine ⟨row :: b1', blocks', hbne, by simpa using hjoin, ?_⟩
        rw [hmap]
        have hstop :
            blockStop ({ cur with stop_index := row.stop_index, stop := row.stop } :: b1')
              = blockStop (cur :: row :: b1') := by
          cases b1' with
          | nil => simp [blockStop_cons]
          | cons z zs => simp [blockStop_cons, List.getLast?_cons]
        rw [hstop]
      · next hgap =>
        obtain ⟨b1', blocks', hbne, hjoin, hmap⟩ :=
          ih (c + 1) row
            (acc ++ [⟨(if row.counter - cur.counter = 1 then
                (cur.counter, cur.counter) else (cur.counter, row.counter - 1)).1,
              (if row.counter - cur.counter = 1 then
                (cur.counter, cur.counter) else (cur.counter, row.counter - 1)).2,
              cur.start_index, cur.start, cur.stop_index, cur.stop⟩])
            (by simp) hctr' lastCounter hlast'
        refine ⟨[], (row :: b1') :: blocks', ?_, ?_, ?_⟩
        · intro b hb
          rcases List.mem_cons.mp hb with rfl | hb'
          · simp
          · exact hbne b hb'
        · simpa using hjoin
        · rw [hmap]
          simp [blockStop_cons, blockStart, blockStop]

lemma getLast_getD_counter (l : List NwRun) (e : NwRun) (c0 : ℕ)
    (h : ∀ i (hi : i < l.length), (l.get ⟨i, hi⟩).counter = c0 + i) (hne : l ≠ []) :
    (l.getLast?.getD e).counter = c0 + (l.length - 1) := by
  rw [List.getLast?_eq_getLast _ hne, Option.getD_some, List.getLast_eq_getElem]
  have := h (l.length - 1) (by
    have := List.length_pos.mpr hne
    omega)
  simpa [List.get_eq_getElem] using this

lemma group_episodes_partition_spec (d corr hz : ℕ) (episodes : List NwRun) (c : ℕ)
    (hseq : ∀ i (h : i < episodes.length), (episodes.get ⟨i, h⟩).counter = c + i) :
    (episodes = [] → group_episodes episodes d corr hz = []) ∧
    (∀ e, episodes = [e] → group_episodes episodes d corr hz =
      [⟨e.counter, e.counter, e.start_index, e.start, e.stop_index, e.stop⟩]) ∧
    (episodes ≠ [] →
      ∃ blocks : List (List NwRun),
        blocks ≠ [] ∧ (∀ b ∈ blocks, b ≠ []) ∧ blocks.join = episodes ∧
        (group_episodes episodes d corr hz).map (fun g => (g.start_index, g.stop_index)) =
          blocks.map (fun b => (blockStart b, blockStop b))) := by
  refine ⟨?_, ?_, ?_⟩
  · rintro rfl; rfl
  · rintro e rfl; rfl
  · intro hne
    cases episodes with
    | nil => exact absurd rfl hne
    | cons e rest =>
      cases rest with
      | nil =>
        refine ⟨[[e]], by simp, by simp, by simp, ?_⟩
        simp [group_episodes, blockStart, blockStop]
      | cons r2 rest' =>
        have hctr' : ∀ i (h : i < (r2 :: rest').length),
            ((r2 :: rest').get ⟨i, h⟩).counter = (c + 1) + i := by
          intro i h
          have := hseq (i + 1) (by simpa using Nat.succ_lt_succ h)
          simpa [Nat.add_assoc, Nat.add_comm 1 i] using this
        have hlastc : ((r2 :: rest').getLast?.getD e).counter
            = (c + 1) + ((r2 :: rest').length - 1) :=
          getLast_getD_counter _ e (c + 1) hctr' (by simp)
        obtain ⟨b1, blocks', hbne, hjoin, hmap⟩ :=
          geLoop_blocks hz d corr (r2 :: rest') (c + 1) e [] (by simp) hctr'
            (((r2 :: rest').getLast?.getD e).counter) hlastc
        refine ⟨(e :: b1) :: blocks', by simp, ?_, ?_, ?_⟩
        · intro b hb
          rcases List.mem_cons.mp hb with rfl | hb'
          · simp
          · exact hbne b hb'
        · simpa using hjoin
        · show (groupEpisodesLoop hz d corr (((r2 :: rest').getLast?.getD e).counter)
            (r2 :: rest') e []).map (fun g => (g.start_index, g.stop_index)) = _
          rw [hmap]
          simp [blockStart]

/-- C8: episode merging always emits the final accumulating episode: an empty
input yields no episodes, a single run is emitted unchanged, and in general
the input runs (sorted, with sequential counters) are partitioned into
consecutive non-empty blocks, each output episode taking the start index of
its block's first run and the stop index of its block's last run, so every
input run is represented in exactly one output episode. -/
theorem group_episodes_partition (d corr hz : ℕ) (episodes : List NwRun) (c : ℕ)
    (hseq : ∀ i (h : i < episodes.length), (episodes.get ⟨i, h⟩).counter = c + i) :
    (episodes = [] → group_episodes episodes d corr hz = []) ∧
    (∀ e, episodes = [e] → group_episodes episodes d corr hz =
      [⟨e.counter, e.counter, e.start_index, e.start, e.stop_index, e.stop⟩]) ∧
    (episodes ≠ [] →
      ∃ blocks : List (List NwRun),
        blocks ≠ [] ∧ (∀ b ∈ blocks, b ≠ []) ∧ blocks.join = episodes ∧
        (group_episodes episodes d corr hz).map (fun g => (g.start_index, g.stop_index)) =
          blocks.map (fun b => (blockStart b, blockStop b))) :=
  group_episodes_partition_spec d corr hz episodes c hseq

theorem group_episodes_partition_example :
    (∀ i (h : i < ([⟨0, 0, 0, 5, 5⟩, ⟨1, 9, 9, 12, 12⟩, ⟨2, 50000, 50000, 50100, 50100⟩] :
        List NwRun).length),
      (([⟨0, 0, 0, 5, 5⟩, ⟨1, 9, 9, 12, 12⟩, ⟨2, 50000, 50000, 50100, 50100⟩] :
        List NwRun).get ⟨i, h⟩).counter = 0 + i) ∧
    (∃ blocks : List (List NwRun),
        blocks ≠ [] ∧ (∀ b ∈ blocks, b ≠ []) ∧
        blocks.join = [⟨0, 0, 0, 5, 5⟩, ⟨1, 9, 9, 12, 12⟩, ⟨2, 50000, 50000, 50100, 50100⟩] ∧
        (group_episodes [⟨0, 0, 0, 5, 5⟩, ⟨1, 9, 9, 12, 12⟩, ⟨2, 50000, 50000, 50100, 50100⟩]
            5 3 100).map (fun g => (g.start_index, g.stop_index)) =
          blocks.map (fun b => (blockStart b, blockStop b))) :=
  ⟨by decide,
   (group_episodes_partition 5 3 100
      [⟨0, 0, 0, 5, 5⟩, ⟨1, 9, 9, 12, 12⟩, ⟨2, 50000, 50000, 50100, 50100⟩] 0
      (by decide)).2.2 (by decide)⟩

/-! Structure of the consecutive-range splitting. -/

lemma fcir_cons_cons (x y : ℕ) (rest : List ℕ) (r : List ℕ) (rs : List (List ℕ))
    (h : find_consecutive_index_ranges (y :: rest) = r :: rs) :
    find_consecutive_index_ranges (x :: y :: rest) =
      if y = x + 1 then (x :: r) :: rs else [x] :: r :: rs := by
  rw [find_consecutive_index_ranges, h]

lemma fcir_ne_nil : ∀ l : List ℕ, find_consecutive_index_ranges l ≠ [] := by
  intro l
  match l with
  | [] => simp [find_consecutive_index_ranges]
  | [x] => simp [find_consecutive_index_ranges]
  | x :: y :: rest =>
    cases h : find_consecutive_index_ranges (y :: rest) with
    | nil => exact absurd h (fcir_ne_nil (y :: rest))
    | cons r rs =>
      rw [fcir_cons_cons x y rest r rs h]
      split <;> simp

lemma fcir_join : ∀ l : List ℕ, (find_consecutive_index_ranges l).flatten = l := by
  intro l
  match l with
  | [] => simp [find_consecutive_index_ranges]
  | [x] => simp [find_consecutive_index_ranges]
  | x :: y :: rest =>
    have ih := fcir_join (y :: rest)
    cases h : find_consecutive_index_ranges (y :: rest) with
    | nil => exact absurd h (fcir_ne_nil (y :: rest))
    | cons r rs =>
      rw [h] at ih
      rw [fcir_cons_cons x y rest r rs h]
      split
      · simpa using ih
      · simpa using ih

lemma fcir_runs_ne_nil : ∀ l : List ℕ, l ≠ [] →
    ∀ r ∈ find_consecutive_index_ranges l, r ≠ [] := by
  intro l
  match l with
  | [] => intro h; exact absurd rfl h
  | [x] =>
    intro _ r hr
    simp [find_consecutive_index_ranges] at hr
    simp [hr]
  | x :: y :: rest =>
    intro _ r hr
    have ih := fcir_runs_ne_nil (y :: rest) (by simp)
    cases h : find_consecutive_index_ranges (y :: rest) with
    | nil => exact absurd h (fcir_ne_nil (y :: rest))
    | cons r0 rs =>
      rw [fcir_cons_cons x y rest r0 rs h] at hr
      split at hr
      · rcases List.mem_cons.mp hr with rfl | hmem
        · simp
        · exact ih r (by rw [h]; exact List.mem_cons_of_mem _ hmem)
      · rcases List.mem_cons.mp hr with rfl | hmem
        · simp
        · exact ih r (by rw [h]; exact hmem)

lemma fcir_first_head : ∀ (a : ℕ) (l : List ℕ), ∃ r rs,
    find_consecutive_index_ranges (a :: l) = r :: rs ∧ r.head? = some a := by
  intro a l
  match l with
  | [] => exact ⟨[a], [], rfl, rfl⟩
  | y :: rest =>
    cases h : find_consecutive_index_ranges (y :: rest) with
    | nil => exact absurd h (fcir_ne_nil (y :: rest))
    | cons r rs =>
      rw [fcir_cons_cons a y rest r rs h]
      by_cases hy : y = a + 1
      · rw [if_pos hy]
        exact ⟨a :: r, rs, rfl, rfl⟩
      · rw [if_neg hy]
        exact ⟨[a], r :: rs, rfl, rfl⟩

lemma fcir_sorted_parts (l : List ℕ) (hl : l.Pairwise (· < ·)) :
    (∀ r ∈ find_consecutive_index_ranges l, r.Pairwise (· < ·)) ∧
    (find_consecutive_index_ranges l).Pairwise
      (fun r s => ∀ a ∈ r, ∀ b ∈ s, a < b) :=
  (@List.pairwise_join _ _ (find_consecutive_index_ranges l)).mp (by rwa [fcir_join])

lemma fcir_mem_of_mem_run (l : List ℕ) (r : List ℕ)
    (hr : r ∈ find_consecutive_index_ranges l) (a : ℕ) (ha : a ∈ r) : a ∈ l := by
  have : a ∈ (find_consecutive_index_ranges l).flatten := List.mem_join.mpr ⟨r, hr, ha⟩
  rwa [fcir_join] at this

lemma fcir_head_no_pred : ∀ l : List ℕ, l.Pairwise (· < ·) →
    ∀ r ∈ find_consecutive_index_ranges l, ∀ z, r.head? = some z →
      z ∈ l ∧ ∀ y ∈ l, y + 1 ≠ z := by
  intro l
  match l with
  | [] =>
    intro _ r hr z hz
    simp [find_consecutive_index_ranges] at hr
    rw [hr] at hz
    cases hz
  | [x] =>
    intro _ r hr z hz
    simp [find_consecutive_index_ranges] at hr
    rw [hr] at hz
    simp at hz
    subst hz
    exact ⟨by simp, by intro y hy; simp at hy; omega⟩
  | x :: y :: rest =>
    intro hl r hr z hz
    have hltail : (y :: rest).Pairwise (· < ·) := hl.tail
    have hxlt : ∀ w ∈ y :: rest, x < w := by
      intro w hw
      exact (List.pairwise_cons.mp hl).1 w hw
    have ih := fcir_head_no_pred (y :: rest) hltail
    cases h : find_consecutive_index_ranges (y :: rest) with
    | nil => exact absurd h (fcir_ne_nil (y :: rest))
    | cons r0 rs =>
      rw [fcir_cons_cons x y rest r0 rs h] at hr
      obtain ⟨r0', rs', hsplit, hr0head⟩ := fcir_first_head y rest
      rw [h] at hsplit
      injection hsplit with h1 h2
      subst h1
      split at hr
      · next hy1 =>
        rcases List.mem_cons.mp hr with rfl | hmem
        · simp only [List.head?_cons, Option.some.injEq] at hz
          subst hz
          refine ⟨by simp, ?_⟩
          intro w hw
          rcases List.mem_cons.mp hw with rfl | hw'
          · omega
          · have := hxlt w hw'
            omega
        · have hz' := ih r (by rw [h]; exact List.mem_cons_of_mem _ hmem) z hz
          refine ⟨List.mem_cons_of_mem _ hz'.1, ?_⟩
          intro w hw
          rcases List.mem_cons.mp hw with rfl | hw'
          · have hcross := (fcir_sorted_parts (y :: rest) hltail).2
            rw [h] at hcross
            have hzr : z ∈ r := List.mem_of_mem_head? (by rw [hz]; exact rfl)
            have hyr0 : y ∈ r0 := List.mem_of_mem_head? (by rw [hr0head]; exact rfl)
            have hylt : y < z := (List.pairwise_cons.mp hcross).1 r hmem y hyr0 z hzr
            omega
          · exact hz'.2 w hw'
      · next hy1 =>
        rcases List.mem_cons.mp hr with rfl | hmem
        · simp only [List.head?_cons, Option.some.injEq] at hz
          subst hz
          refine ⟨by simp, ?_⟩
          intro w hw
          rcases List.mem_cons.mp hw with rfl | hw'
          · omega
          · have := hxlt w hw'
            omega
        · have hz' := ih r (by rw [h]; exact hmem) z hz
          refine ⟨List.mem_cons_of_mem _ hz'.1, ?_⟩
          intro w hw
          rcases List.mem_cons.mp hw with rfl | hw'
          · rcases List.mem_cons.mp hz'.1 with rfl | hz''
            · omega
            · have h1 : y < z := (List.pairwise_cons.mp hltail).1 z hz''
              have h2 := hxlt y (by simp)
              omega
          · exact hz'.2 w hw'

/-! The minimum of a sorted run is its head; backward searches move their
index down by whole steps. -/

lemma foldl_min_eq (x : ℕ) : ∀ xs : List ℕ, (∀ y ∈ xs, x ≤ y) → xs.foldl min x = x := by
  intro xs
  induction xs generalizing x with
  | nil => intro _; rfl
  | cons y ys ih =>
    intro hall
    rw [List.foldl_cons, min_eq_left (hall y (by simp))]
    exact ih x (fun z hz => hall z (by simp [hz]))

lemma npMin_of_sorted (r : List ℕ) (hr : r.Pairwise (· < ·)) (z : ℕ)
    (hz : r.head? = some z) : npMin r = z := by
  cases r with
  | nil => cases hz
  | cons a as =>
    simp only [List.head?_cons, Option.some.injEq] at hz
    subst hz
    unfold npMin
    exact foldl_min_eq a as
      (fun y hy => le_of_lt ((List.pairwise_cons.mp hr).1 y hy))

lemma npMin_head_mem (r : List ℕ) (hne : r ≠ []) (hr : r.Pairwise (· < ·)) :
    npMin r ∈ r := by
  cases r with
  | nil => exact absurd rfl hne
  | cons a as =>
    rw [npMin_of_sorted (a :: as) hr a rfl]
    simp

lemma backwardSearchGo_sub (data : List Tri) (stop : ℕ) (t : ℚ) (step : ℕ) :
    ∀ fuel start, ∃ k, backwardSearchGo data stop t step fuel start = start - step * k ∧
      step * k ≤ start := by
  intro fuel
  induction fuel with
  | zero => intro start; exact ⟨0, by simp [backwardSearchGo], by simp⟩
  | succ f ih =>
    intro start
    rw [backwardSearchGo]
    split
    · next hc =>
      obtain ⟨k, hk, hle⟩ := ih (start - step)
      refine ⟨k + 1, ?_, ?_⟩
      · rw [hk]
        have he : step * (k + 1) = step * k + step := by ring
        omega
      · have he : step * (k + 1) = step * k + step := by ring
        omega
    · exact ⟨0, by simp, by simp⟩

lemma bwdEpGo_spec (acc : List Tri) (hz : ℕ) (t : ℚ) :
    ∀ fuel x, ∃ k, backwardSearchEpisodeGo acc hz t fuel x = x - hz * k ∧
      hz * k ≤ x ∧ k ≤ fuel ∧
      (∀ j < k, hz ≤ x - hz * j ∧
        stdAllLe (pySlice acc ((x - hz * j - hz : ℕ) : ℤ) ((x - hz * j : ℕ) : ℤ)) t = true) ∧
      (k < fuel → ¬(hz ≤ x - hz * k ∧
        stdAllLe (pySlice acc ((x - hz * k - hz : ℕ) : ℤ) ((x - hz * k : ℕ) : ℤ)) t = true)) := by
  intro fuel
  induction fuel with
  | zero =>
    intro x
    exact ⟨0, by simp [backwardSearchEpisodeGo], by simp, le_rfl, by omega, by omega⟩
  | succ f ih =>
    intro x
    rw [backwardSearchEpisodeGo]
    split
    · next hok =>
      obtain ⟨k, hk, hle, hkf, hall, hfail⟩ := ih (x - hz)
      have hsum : ∀ j : ℕ, x - hz * (j + 1) = x - hz - hz * j := by
        intro j
        have : hz * (j + 1) = hz + hz * j := by ring
        omega
      refine ⟨k + 1, ?_, ?_, by omega, ?_, ?_⟩
      · rw [hk, hsum k]
      · have : hz * (k + 1) = hz + hz * k := by ring
        omega
      · intro j hj
        cases j with
        | zero => simpa using hok
        | succ j' =>
          have := hall j' (by omega)
          rw [hsum j']
          exact this
      · intro hkfuel
        rw [hsum k]
        exact hfail (by omega)
    · next hok =>
      refine ⟨0, by simp, by simp, by omega, by omega, ?_⟩
      intro _
      simpa using hok

lemma bwdEpGo_mono (acc : List Tri) (hz : ℕ) (t : ℚ) (fuel x dd : ℕ) :
    backwardSearchEpisodeGo acc hz t fuel x ≤
      backwardSearchEpisodeGo acc hz t fuel (x + hz * dd) := by
  set y := x + hz * dd with hy
  obtain ⟨kx, hgx, hlx, hkx, hallx, hfx⟩ := bwdEpGo_spec acc hz t fuel x
  obtain ⟨ky, hgy, hly, hky, hally, hfy⟩ := bwdEpGo_spec acc hz t fuel y
  rw [hgx, hgy]
  by_cases hcase : ky ≤ dd
  · have h1 : hz * ky ≤ hz * dd := Nat.mul_le_mul_left _ hcase
    omega
  · have hkxd : ky - dd ≤ kx := by
      by_contra hc
      push_neg at hc
      have hj : dd + kx < ky := by omega
      have h1 := hally (dd + kx) hj
      have heq : y - hz * (dd + kx) = x - hz * kx := by
        have he : hz * (dd + kx) = hz * dd + hz * kx := by ring
        omega
      rw [heq] at h1
      have hkxfuel : kx < fuel := by omega
      exact (hfx hkxfuel) h1
    have hmul : hz * (ky - dd) ≤ hz * kx := Nat.mul_le_mul_left _ hkxd
    have hsum : hz * (ky - dd) + hz * dd = hz * ky := by
      rw [← Nat.mul_add]
      congr 1
      omega
    omega

lemma bwdEpGo_sub (acc : List Tri) (hz : ℕ) (t : ℚ) (fuel x : ℕ) :
    ∃ k, backwardSearchEpisodeGo acc hz t fuel x = x - hz * k ∧ hz * k ≤ x := by
  obtain ⟨k, hk, hle, _, _, _⟩ := bwdEpGo_spec acc hz t fuel x
  exact ⟨k, hk, hle⟩

/-! Alignment of candidate run boundaries to whole minute windows. -/

lemma zeroIndexes_sorted (v : List ℕ) : (zeroIndexes v).Pairwise (· < ·) :=
  (List.pairwise_lt_range v.length).filter _

lemma mem_zeroIndexes (v : List ℕ) (i : ℕ) :
    i ∈ zeroIndexes v ↔ i < v.length ∧ v.getD i 0 = 0 := by
  simp [zeroIndexes, List.mem_filter, List.mem_range]

lemma candidate_run_head_aligned (acc : List Tri) (t : ℚ) (hz sw : ℕ)
    (hW : 0 < sw * hz * 60) (row : List ℕ)
    (hrow : row ∈ find_consecutive_index_ranges
      (zeroIndexes (candidateInitialVector acc t hz sw)))
    (z : ℕ) (hzhead : row.head? = some z) :
    (sw * hz * 60) ∣ z := by
  have hsorted := zeroIndexes_sorted (candidateInitialVector acc t hz sw)
  obtain ⟨hmem, hnopred⟩ := fcir_head_no_pred _ hsorted row hrow z hzhead
  have hz2 := (mem_zeroIndexes _ _).mp hmem
  have hlen := candidateInitialVector_length acc t hz sw
  have hzn : z < acc.length := by omega
  obtain ⟨k, hkmem, hcheck, hkle, hklt⟩ :=
    (candidateInitialVector_zero_iff acc t hz sw z hzn).mp hz2.2
  have hkz : k = z := by
    by_contra hne
    have hklt' : k < z := by omega
    have hz1 : (candidateInitialVector acc t hz sw).getD (z - 1) 0 = 0 := by
      apply (candidateInitialVector_zero_iff acc t hz sw (z - 1) (by omega)).mpr
      exact ⟨k, hkmem, hcheck, by omega, by omega⟩
    have hz1mem : (z - 1) ∈ zeroIndexes (candidateInitialVector acc t hz sw) :=
      (mem_zeroIndexes _ _).mpr ⟨by omega, hz1⟩
    have := hnopred (z - 1) hz1mem
    omega
  obtain ⟨m, hm, _⟩ := (mem_windowStarts_iff acc.length (sw * hz * 60) k hW).mp hkmem
  refine ⟨m, ?_⟩
  have hcomm : m * (sw * hz * 60) = sw * hz * 60 * m := by ring
  omega

lemma refinedRunStart_aligned (acc : List Tri) (t : ℚ) (sw msl : ℕ) (hsw : 1 ≤ sw)
    (srow : List ℕ)
    (hsrow : srow ∈ find_consecutive_index_ranges
      (zeroIndexes (candidateInitialVector acc t 100 sw)))
    (hne : srow ≠ []) :
    6000 ∣ refinedRunStart acc t 100 srow := by
  have hsorted := zeroIndexes_sorted (candidateInitialVector acc t 100 sw)
  have hparts := fcir_sorted_parts _ hsorted
  have hsrowsorted := hparts.1 srow hsrow
  obtain ⟨z, hzhead⟩ : ∃ z, srow.head? = some z := by
    cases srow with
    | nil => exact absurd rfl hne
    | cons a as => exact ⟨a, rfl⟩
  have halign := candidate_run_head_aligned acc t 100 sw (by positivity) srow hsrow z hzhead
  have hdvd6000 : (6000 : ℕ) ∣ sw * 100 * 60 := ⟨sw, by ring⟩
  have hzdvd : (6000 : ℕ) ∣ z := dvd_trans hdvd6000 halign
  have hmin : npMin srow = z := npMin_of_sorted srow hsrowsorted z hzhead
  unfold refinedRunStart backward_search_non_wear_time
  obtain ⟨k, hk, hle⟩ := backwardSearchGo_sub acc (npMax srow) t (60 * 100)
    (npMin srow + 1) (npMin srow)
  rw [hk, hmin]
  rw [hmin] at hle
  have h1 : (6000 : ℕ) ∣ 60 * 100 * k := ⟨k, by ring⟩
  exact Nat.dvd_sub' hzdvd h1

lemma final_run_head_aligned (acc : List Tri) (t : ℚ) (msl sw : ℕ) (hsw : 1 ≤ sw)
    (row : List ℕ)
    (hrow : row ∈ find_consecutive_index_ranges
      (zeroIndexes (find_candidate_non_wear_segments_from_raw acc t 100 msl sw)))
    (z : ℕ) (hzhead : row.head? = some z) :
    6000 ∣ z := by
  have hsorted := zeroIndexes_sorted (find_candidate_non_wear_segments_from_raw acc t 100 msl sw)
  obtain ⟨hmem, hnopred⟩ := fcir_head_no_pred _ hsorted row hrow z hzhead
  have hz2 := (mem_zeroIndexes _ _).mp hmem
  have hlen := find_candidate_length acc t 100 msl sw
  have hzn : z < acc.length := by omega
  obtain ⟨srow, hsrow, hsne, hlong, hsle, hslt⟩ :=
    (find_candidate_zero_iff acc t 100 msl sw z hzn).mp hz2.2
  have hsz : refinedRunStart acc t 100 srow = z := by
    by_contra hne
    have hlt : refinedRunStart acc t 100 srow < z := by omega
    have hz1 : (find_candidate_non_wear_segments_from_raw acc t 100 msl sw).getD (z - 1) 0 = 0 := by
      apply (find_candidate_zero_iff acc t 100 msl sw (z - 1) (by omega)).mpr
      exact ⟨srow, hsrow, hsne, hlong, by omega, by omega⟩
    have hz1mem : (z - 1) ∈ zeroIndexes
        (find_candidate_non_wear_segments_from_raw acc t 100 msl sw) :=
      (mem_zeroIndexes _ _).mpr ⟨by omega, hz1⟩
    have := hnopred (z - 1) hz1mem
    omega
  rw [← hsz]
  exact refinedRunStart_aligned acc t sw msl hsw srow hsrow hsne

lemma episodeRunsOf_of_ne_nil (acc : List Tri) (t : ℚ) (msl sw : ℕ)
    (hne : zeroIndexes (find_candidate_non_wear_segments_from_raw acc t 100 msl sw) ≠ []) :
    episodeRunsOf acc t msl sw =
      (find_consecutive_index_ranges
        (zeroIndexes (find_candidate_non_wear_segments_from_raw acc t 100 msl sw))).enum.map
        (fun p => ⟨p.1, npMin p.2, npMin p.2, npMax p.2, npMax p.2⟩) := by
  simp only [episodeRunsOf]
  rw [if_pos]
  cases hsegs : find_consecutive_index_ranges
      (zeroIndexes (find_candidate_non_wear_segments_from_raw acc t 100 msl sw)) with
  | nil => exact absurd hsegs (fcir_ne_nil _)
  | cons r0 tl =>
    have hr0 : r0 ≠ [] :=
      fcir_runs_ne_nil _ hne r0 (by rw [hsegs]; simp)
    simpa [List.length_pos] using hr0

lemma episodeRunsOf_of_nil (acc : List Tri) (t : ℚ) (msl sw : ℕ)
    (hnil : zeroIndexes (find_candidate_non_wear_segments_from_raw acc t 100 msl sw) = []) :
    episodeRunsOf acc t msl sw = [] := by
  simp only [episodeRunsOf]
  rw [hnil]
  simp [find_consecutive_index_ranges]

lemma runs_counter_seq (acc : List Tri) (t : ℚ) (msl sw : ℕ) :
    ∀ i (h : i < (episodeRunsOf acc t msl sw).length),
      ((episodeRunsOf acc t msl sw).get ⟨i, h⟩).counter = 0 + i := by
  by_cases hne : zeroIndexes (find_candidate_non_wear_segments_from_raw acc t 100 msl sw) = []
  · rw [episodeRunsOf_of_nil acc t msl sw hne]
    intro i h
    simp at h
  · rw [episodeRunsOf_of_ne_nil acc t msl sw hne]
    intro i h
    rw [List.get_eq_getElem, List.getElem_map, List.getElem_enum]
    simp

lemma runs_sorted_and_aligned (acc : List Tri) (t : ℚ) (msl sw : ℕ) (hsw : 1 ≤ sw) :
    (episodeRunsOf acc t msl sw).Pairwise (fun r1 r2 => r1.start_index < r2.start_index) ∧
    ∀ r ∈ episodeRunsOf acc t msl sw, 6000 ∣ r.start_index := by
  by_cases hnil : zeroIndexes (find_candidate_non_wear_segments_from_raw acc t 100 msl sw) = []
  · rw [episodeRunsOf_of_nil acc t msl sw hnil]
    exact ⟨List.Pairwise.nil, by simp⟩
  · rw [episodeRunsOf_of_ne_nil acc t msl sw hnil]
    have hsorted := zeroIndexes_sorted
      (find_candidate_non_wear_segments_from_raw acc t 100 msl sw)
    have hparts := fcir_sorted_parts _ hsorted
    have hrne := fcir_runs_ne_nil _ hnil
    constructor
    · rw [List.pairwise_map, List.pairwise_iff_get]
      intro i j hij
      have hlenE : (find_consecutive_index_ranges
          (zeroIndexes (find_candidate_non_wear_segments_from_raw acc t 100 msl sw))).enum.length
          = (find_consecutive_index_ranges
          (zeroIndexes (find_candidate_non_wear_segments_from_raw acc t 100 msl sw))).length :=
        List.enum_length
      have hi : (i : ℕ) < (find_consecutive_index_ranges
          (zeroIndexes (find_candidate_non_wear_segments_from_raw acc t 100 msl sw))).length :=
        hlenE ▸ i.isLt
      have hj : (j : ℕ) < (find_consecutive_index_ranges
          (zeroIndexes (find_candidate_non_wear_segments_from_raw acc t 100 msl sw))).length :=
        hlenE ▸ j.isLt
      simp only [List.get_eq_getElem, List.getElem_enum]
      have hcross := (List.pairwise_iff_get.mp hparts.2) ⟨i, hi⟩ ⟨j, hj⟩ hij
      simp only [List.get_eq_getElem] at hcross
      have hrows_i := hrne _ (List.getElem_mem hi)
      have hrows_j := hrne _ (List.getElem_mem hj)
      have hmin_i := npMin_head_mem _ hrows_i (hparts.1 _ (List.getElem_mem hi))
      have hmin_j := npMin_head_mem _ hrows_j (hparts.1 _ (List.getElem_mem hj))
      exact hcross _ hmin_i _ hmin_j
    · intro r hr
      obtain ⟨p, hp, rfl⟩ := List.mem_map.mp hr
      have hrow : p.2 ∈ find_consecutive_index_ranges
          (zeroIndexes (find_candidate_non_wear_segments_from_raw acc t 100 msl sw)) :=
        List.snd_mem_of_mem_enum hp
      have hpne : p.2 ≠ [] := hrne _ hrow
      obtain ⟨z, hzhead⟩ : ∃ z, p.2.head? = some z := by
        cases hc : p.2 with
        | nil => exact absurd hc hpne
        | cons a as => exact ⟨a, rfl⟩
      have hmin : npMin p.2 = z :=
        npMin_of_sorted _ (hparts.1 _ hrow) z hzhead
      show 6000 ∣ npMin p.2
      rw [hmin]
      exact final_run_head_aligned acc t msl sw hsw p.2 hrow z hzhead

lemma head_getD_mem (b : List NwRun) (hne : b ≠ []) (x : NwRun) :
    b.head?.getD x ∈ b := by
  cases b with
  | nil => exact absurd rfl hne
  | cons a as => simp

lemma getLast_getD_mem (b : List NwRun) (hne : b ≠ []) (x : NwRun) :
    b.getLast?.getD x ∈ b := by
  rw [List.getLast?_eq_getLast _ hne, Option.getD_some]
  exact List.getLast_mem hne

lemma merged_sorted_and_aligned (acc : List Tri) (t : ℚ) (d msl sw : ℕ) (hsw : 1 ≤ sw) :
    (mergedEpisodesOf acc t d msl sw).Pairwise
      (fun e1 e2 => e1.start_index ≤ e2.start_index) ∧
    ∀ ep ∈ mergedEpisodesOf acc t d msl sw, 6000 ∣ ep.start_index := by
  obtain ⟨hPW, hAL⟩ := runs_sorted_and_aligned acc t msl sw hsw
  by_cases hne : episodeRunsOf acc t msl sw = []
  · have hmerged : mergedEpisodesOf acc t d msl sw = [] := by
      unfold mergedEpisodesOf
      rw [hne]
      rfl
    rw [hmerged]
    exact ⟨List.Pairwise.nil, by simp⟩
  · obtain ⟨blocks, hbne0, hbne, hjoin, hmap⟩ :=
      (group_episodes_partition_spec d 3 100 (episodeRunsOf acc t msl sw) 0
        (runs_counter_seq acc t msl sw)).2.2 hne
    have hjoin' : blocks.flatten = episodeRunsOf acc t msl sw := hjoin
    have hmm : (mergedEpisodesOf acc t d msl sw).map
        (fun g => (g.start_index, g.stop_index)) =
        blocks.map (fun b => (blockStart b, blockStop b)) := hmap
    have hstarts : (mergedEpisodesOf acc t d msl sw).map (fun g => g.start_index) =
        blocks.map blockStart := by
      have hc := congrArg (List.map Prod.fst) hmm
      rw [List.map_map, List.map_map] at hc
      exact hc
    have hcrossAll := List.pairwise_join.mp (hjoin' ▸ hPW)
    constructor
    · have hblocksPW : blocks.Pairwise (fun b1 b2 => blockStart b1 ≤ blockStart b2) := by
        refine List.Pairwise.imp_of_mem ?_ hcrossAll.2
        intro b1 b2 hb1 hb2 hcr
        have h1 := head_getD_mem b1 (hbne b1 hb1) ⟨0, 0, 0, 0, 0⟩
        have h2 := head_getD_mem b2 (hbne b2 hb2) ⟨0, 0, 0, 0, 0⟩
        exact le_of_lt (hcr _ h1 _ h2)
      have hmapPW : ((mergedEpisodesOf acc t d msl sw).map
          (fun g => g.start_index)).Pairwise (· ≤ ·) := by
        rw [hstarts, List.pairwise_map]
        exact hblocksPW
      rw [List.pairwise_map] at hmapPW
      exact hmapPW
    · intro ep hep
      have hmem : ep.start_index ∈ (mergedEpisodesOf acc t d msl sw).map
          (fun g => g.start_index) := List.mem_map_of_mem _ hep
      rw [hstarts] at hmem
      obtain ⟨b, hb, hbeq⟩ := List.mem_map.mp hmem
      have hhead : b.head?.getD ⟨0, 0, 0, 0, 0⟩ ∈ episodeRunsOf acc t msl sw := by
        rw [← hjoin']
        exact List.mem_join.mpr ⟨b, hb, head_getD_mem b (hbne b hb) _⟩
      have := hAL _ hhead
      rw [← hbeq]
      exact this

lemma merged_refinedStart_mono (acc : List Tri) (t : ℚ) (d msl sw : ℕ) (hsw : 1 ≤ sw) :
    (mergedEpisodesOf acc t d msl sw).Pairwise
      (fun e1 e2 => refinedStart acc t e1 ≤ refinedStart acc t e2) := by
  obtain ⟨hPW, hAL⟩ := merged_sorted_and_aligned acc t d msl sw hsw
  refine List.Pairwise.imp_of_mem ?_ hPW
  intro e1 e2 h1 h2 hle
  obtain ⟨m1, hm1⟩ := hAL e1 h1
  obtain ⟨m2, hm2⟩ := hAL e2 h2
  have hdd : e2.start_index = e1.start_index + 100 * (60 * m2 - 60 * m1) := by
    omega
  show backwardSearchEpisodeGo acc 100 t (100 * 60 * 5) e1.start_index ≤
    backwardSearchEpisodeGo acc 100 t (100 * 60 * 5) e2.start_index
  rw [hdd]
  exact bwdEpGo_mono acc 100 t (100 * 60 * 5) e1.start_index (60 * m2 - 60 * m1)

lemma processEpisodes_ok_intervals (acc : List Tri) (classify : List Tri → ℕ)
    (t : ℚ) (w : ℕ) (edge : Bool) (rule : String) (nwt : ℕ) :
    ∀ (eps : List GroupedEpisode) (v : List ℕ) (idxs : List (ℕ × ℕ))
      (v' : List ℕ) (idxs' : List (ℕ × ℕ)),
      processEpisodes acc classify t w edge rule nwt eps (v, idxs) = .ok (v', idxs') →
      idxs' = idxs ++ eps.filterMap (fun ep =>
        if episodeConfirmed acc classify t w edge rule ep = true then
          some (refinedStart acc t ep, refinedStop acc t ep) else none) := by
  intro eps
  induction eps with
  | nil =>
    intro v idxs v' idxs' h
    simp only [processEpisodes, Except.ok.injEq, Prod.mk.injEq] at h
    simp [← h.2]
  | cons ep rest ih =>
    intro v idxs v' idxs' h
    simp only [processEpisodes] at h
    split at h
    · next hr =>
      have hconf : episodeConfirmed acc classify t w edge rule ep =
          (startLabel acc w edge classify (refinedStart acc t ep) ||
            stopLabel acc w edge classify (refinedStop acc t ep)) := by
        simp [episodeConfirmed, hr]
      split at h
      · next hdec =>
        rw [ih _ _ _ _ h, List.filterMap_cons, hconf, if_pos hdec]
        simp
      · next hdec =>
        rw [ih _ _ _ _ h, List.filterMap_cons, hconf,
          if_neg (by simpa using hdec)]
    · next hr =>
      split at h
      · next hr2 =>
        have hconf : episodeConfirmed acc classify t w edge rule ep =
            (startLabel acc w edge classify (refinedStart acc t ep) &&
              stopLabel acc w edge classify (refinedStop acc t ep)) := by
          simp [episodeConfirmed, hr]
        split at h
        · next hdec =>
          rw [ih _ _ _ _ h, List.filterMap_cons, hconf, if_pos hdec]
          simp
        · next hdec =>
          rw [ih _ _ _ _ h, List.filterMap_cons, hconf,
            if_neg (by simpa using hdec)]
      · cases h

/-- C9: whenever the engine returns a result, the Output Interval List is
exactly the in-order image of the merged episode list (each confirmed episode
contributing its second-stage refined interval), and its start indexes are
non-decreasing.  The monotonicity holds because every merged episode start is
aligned to whole minutes of the working 100 Hz rate and the bounded backward
search is monotone over aligned anchors. -/
theorem interval_list_sorted (raw : List Tri) (hz : ℕ) (classify : List Tri → ℕ)
    (t : ℚ) (d esw : ℕ) (edge : Bool) (rule : String) (nwt wt msl sw : ℕ)
    (v : List ℕ) (idxs : List (ℕ × ℕ)) (hsw : 1 ≤ sw)
    (h : cnn_nw_algorithm raw hz classify t d esw edge rule nwt wt msl sw
      = .ok (v, idxs)) :
    idxs = (mergedEpisodesOf (preprocessed raw hz) t d msl sw).filterMap
      (fun ep => if episodeConfirmed (preprocessed raw hz) classify t (esw * 100)
          edge rule ep = true then
        some (refinedStart (preprocessed raw hz) t ep,
          refinedStop (preprocessed raw hz) t ep) else none) ∧
    List.Chain' (· ≤ ·) (idxs.map Prod.fst) := by
  simp only [cnn_nw_algorithm] at h
  split at h
  · cases h
  · have hidx := processEpisodes_ok_intervals _ _ _ _ _ _ _ _ _ _ _ _ h
    simp only [List.nil_append] at hidx
    refine ⟨hidx, ?_⟩
    have hmono := merged_refinedStart_mono (preprocessed raw hz) t d msl sw hsw
    have hpw : (idxs.map Prod.fst).Pairwise (· ≤ ·) := by
      rw [hidx, List.pairwise_map, List.pairwise_filterMap]
      refine List.Pairwise.imp_of_mem ?_ hmono
      intro e1 e2 h1 h2 hle p hp q hq
      split at hp
      · split at hq
        · simp only [Option.mem_def, Option.some.injEq] at hp hq
          rw [← hp, ← hq]
          exact hle
        · simp at hq
      · simp at hp
    exact hpw.chain'

theorem interval_list_sorted_example :
    (1 : ℕ) ≤ 1 ∧
    cnn_nw_algorithm [((0 : ℚ), (0 : ℚ), (0 : ℚ)), ((0 : ℚ), (0 : ℚ), (0 : ℚ))] 100
      (fun _ => 0) (1 / 250) 5 7 true "and" 1 0 0 1 = .ok ([0, 0], [(0, 0)]) ∧
    ([(0, 0)] : List (ℕ × ℕ)) =
      (mergedEpisodesOf
          (preprocessed [((0 : ℚ), (0 : ℚ), (0 : ℚ)), ((0 : ℚ), (0 : ℚ), (0 : ℚ))] 100)
          (1 / 250) 5 0 1).filterMap
        (fun ep => if episodeConfirmed
            (preprocessed [((0 : ℚ), (0 : ℚ), (0 : ℚ)), ((0 : ℚ), (0 : ℚ), (0 : ℚ))] 100)
            (fun _ => 0) (1 / 250) (7 * 100) true "and" ep = true then
          some (refinedStart
              (preprocessed [((0 : ℚ), (0 : ℚ), (0 : ℚ)), ((0 : ℚ), (0 : ℚ), (0 : ℚ))] 100)
              (1 / 250) ep,
            refinedStop
              (preprocessed [((0 : ℚ), (0 : ℚ), (0 : ℚ)), ((0 : ℚ), (0 : ℚ), (0 : ℚ))] 100)
              (1 / 250) ep) else none) ∧
    List.Chain' (· ≤ ·) (([(0, 0)] : List (ℕ × ℕ)).map Prod.fst) := by
  have h : cnn_nw_algorithm [((0 : ℚ), (0 : ℚ), (0 : ℚ)), ((0 : ℚ), (0 : ℚ), (0 : ℚ))] 100
      (fun _ => 0) (1 / 250) 5 7 true "and" 1 0 0 1 = .ok ([0, 0], [(0, 0)]) := by decide
  have hc := interval_list_sorted _ 100 _ (1 / 250) 5 7 true "and" 1 0 0 1 _ _ le_rfl h
  exact ⟨le_rfl, h, hc.1, hc.2⟩
